import Mathlib

/-!
# Formal model of the Infra Resilience Explorer core

Shallow embedding of the `ires` package: rooted trees built by the
breadth-first constructor from a parent map (`core/tree.py`), the
binary-lifting LCA table with path sums (`core/lca.py`), induced tree
capacities and per-edge congestion (`core/congestion.py`), cut extraction
(`core/cuts.py`), report assembly (`core/report.py`), the edge-list loader
(`core/io.py`) and the mixture record round-trip (`cli.py`).

Modelling conventions: node labels are natural numbers (the code only
needs equality and a total order on opaque labels); float capacities are
rationals (exact arithmetic); Python dicts are association lists in
insertion order with first-binding-wins lookup; an `Option` result models
abnormal termination -- a raised exception or, for the fuel-indexed loops,
non-termination -- as stated at each definition.
-/

namespace Ires

abbrev Node := Nat

/-- Association-list lookup, first binding wins (a Python dict read). -/
def alook {α β : Type} [DecidableEq α] : List (α × β) → α → Option β
  | [], _ => none
  | (a, b) :: rest, x => if a = x then some b else alook rest x

/-- A parent map: `dict[str, str | None]` in insertion order. -/
abbrev PMap := List (Node × Option Node)

/-- The key list of a parent map (`self.parent.keys()`). -/
def pkeys (pm : PMap) : List Node := pm.map (fun e => e.1)

/-- Lookup `parent.get(v)` flattened: `some p` when `v` maps to parent `p`,
`none` when `v` is absent or maps to `None`. -/
def parentF (pm : PMap) (v : Node) : Option Node := (alook pm v).join

/-- Children `children[u]` in insertion order, as built by `Tree.__init__`. -/
def childrenOf (pm : PMap) (u : Node) : List Node :=
  (pm.filter (fun e => e.2 == some u)).map (fun e => e.1)

/-- The `k`-fold iterated parent: specification vocabulary for ancestry. -/
def anc (pm : PMap) : Nat → Node → Option Node
  | 0, v => some v
  | k + 1, v => (parentF pm v).bind (anc pm k)

/-- Holds when `a` is an ancestor of `v` (possibly `a = v`) under the parent map. -/
def isAnc (pm : PMap) (a v : Node) : Prop := ∃ k, anc pm k v = some a

/-- The `while queue:` loop of `Tree.__init__`, with explicit fuel:
`none` means the loop has not finished within `fuel` dequeue steps (the
Python loop can run forever on parent maps whose root sits in a cycle).
The inner `alook dep u` never fails on reachable states: `depth[u]` is
assigned whenever `u` is enqueued. -/
def bfsAux (pm : PMap) :
    Nat → List Node → List Node → List (Node × Nat) →
    Option (List Node × List (Node × Nat))
  | 0, queue, order, dep => if queue.isEmpty then some (order, dep) else none
  | _ + 1, [], order, dep => some (order, dep)
  | fuel + 1, u :: queue, order, dep =>
    match alook dep u with
    | none => none
    | some du =>
      let cs := childrenOf pm u
      bfsAux pm fuel (queue ++ cs) (order ++ [u])
        ((cs.map (fun c => (c, du + 1))) ++ dep)

/-- The data computed by a successful `Tree.__init__`. -/
structure TreeData where
  root : Node
  parent : PMap
  bfsOrder : List Node
  depth : List (Node × Nat)
deriving DecidableEq

/-- Model of `Tree.__init__(root, parent)`: `some (.error _)` models a raised
`ValueError`, `some (.ok t)` a constructed tree, `none` that the BFS loop
did not terminate within `fuel` steps. -/
def treeInit (fuel : Nat) (root : Node) (pm : PMap) :
    Option (Except String TreeData) :=
  if (alook pm root).isSome then
    match bfsAux pm fuel [root] [] [(root, 0)] with
    | none => none
    | some (order, dep) =>
      if (pkeys pm).all (fun n => (alook dep n).isSome) then
        some (.ok ⟨root, pm, order, dep⟩)
      else some (.error "Parent map does not form a connected tree")
  else some (.error "root must be present in parent map")

/-- A parent map that denotes a rooted tree over its keys: keys are
unique (Python dict), the root is bound to `None`, and every key reaches
the root by iterating parents. -/
def ValidPM (root : Node) (pm : PMap) : Prop :=
  (pkeys pm).Nodup ∧ alook pm root = some none ∧
    ∀ v ∈ pkeys pm, ∃ k, anc pm k v = some root

/-! ## Association-list lemmas -/

theorem alook_mem {α β : Type} [DecidableEq α] {l : List (α × β)} {x : α} {b : β}
    (h : alook l x = some b) : (x, b) ∈ l := by
  induction l with
  | nil => simp [alook] at h
  | cons e rest ih =>
    obtain ⟨a, b'⟩ := e
    by_cases hax : a = x
    · subst hax
      simp [alook] at h
      simp [h]
    · simp [alook, hax] at h
      exact List.mem_cons_of_mem _ (ih h)

theorem alook_isSome_iff {α β : Type} [DecidableEq α] {l : List (α × β)} {x : α} :
    (alook l x).isSome ↔ x ∈ l.map (fun e => e.1) := by
  induction l with
  | nil => simp [alook]
  | cons e rest ih =>
    obtain ⟨a, b'⟩ := e
    by_cases hax : a = x
    · subst hax; simp [alook]
    · simp [alook, hax, ih, Ne.symm hax]

theorem alook_eq_none_iff {α β : Type} [DecidableEq α] {l : List (α × β)} {x : α} :
    alook l x = none ↔ x ∉ l.map (fun e => e.1) := by
  rw [← alook_isSome_iff (l := l) (x := x)]
  cases alook l x <;> simp

theorem mem_alook {α β : Type} [DecidableEq α] {l : List (α × β)} {x : α} {b : β}
    (hn : (l.map (fun e => e.1)).Nodup) (h : (x, b) ∈ l) : alook l x = some b := by
  induction l with
  | nil => simp at h
  | cons e rest ih =>
    obtain ⟨a, b'⟩ := e
    simp only [List.map_cons, List.nodup_cons] at hn
    rcases List.mem_cons.mp h with heq | hmem
    · obtain ⟨rfl, rfl⟩ := Prod.ext_iff.mp heq
      simp [alook]
    · have hx : x ∈ rest.map (fun e => e.1) := List.mem_map.mpr ⟨(x, b), hmem, rfl⟩
      have hax : a ≠ x := fun hh => hn.1 (hh ▸ hx)
      simp only [alook, if_neg hax]
      exact ih hn.2 hmem

theorem alook_append {α β : Type} [DecidableEq α] {l₁ l₂ : List (α × β)} {x : α} :
    alook (l₁ ++ l₂) x = ((alook l₁ x).map some).getD (alook l₂ x) := by
  induction l₁ with
  | nil => simp [alook]
  | cons e rest ih =>
    obtain ⟨a, b'⟩ := e
    by_cases hax : a = x <;> simp [alook, hax, ih]

theorem alook_append_none {α β : Type} [DecidableEq α] {l₁ l₂ : List (α × β)}
    {x : α} (h : alook l₁ x = none) : alook (l₁ ++ l₂) x = alook l₂ x := by
  rw [alook_append, h]
  rfl

theorem alook_append_some {α β : Type} [DecidableEq α] {l₁ l₂ : List (α × β)}
    {x : α} {b : β} (h : alook l₁ x = some b) : alook (l₁ ++ l₂) x = some b := by
  rw [alook_append, h]
  rfl

/-! ## Children and ancestor-chain lemmas -/

theorem mem_childrenOf_iff {pm : PMap} {u c : Node} :
    c ∈ childrenOf pm u ↔ (c, some u) ∈ pm := by
  simp only [childrenOf, List.mem_map, List.mem_filter]
  constructor
  · rintro ⟨⟨a, p⟩, ⟨hmem, hp⟩, rfl⟩
    have hpu : p = some u := by simpa using hp
    subst hpu
    exact hmem
  · intro h
    exact ⟨(c, some u), ⟨h, by simp⟩, rfl⟩

theorem childrenOf_nodup {pm : PMap} (hn : (pkeys pm).Nodup) (u : Node) :
    (childrenOf pm u).Nodup := by
  unfold childrenOf
  unfold pkeys at hn
  have hsub : (pm.filter (fun e => e.2 == some u)).Sublist pm := List.filter_sublist pm
  exact (hsub.map (fun e => e.1)).nodup hn

theorem parentF_eq_some_iff {pm : PMap} {v p : Node} :
    parentF pm v = some p ↔ alook pm v = some (some p) := by
  unfold parentF
  cases h : alook pm v with
  | none => simp
  | some o => cases o <;> simp

theorem mem_pkeys_of_parentF {pm : PMap} {v p : Node}
    (h : parentF pm v = some p) : v ∈ pkeys pm := by
  rw [parentF_eq_some_iff] at h
  exact alook_isSome_iff.mp (by simp [h])

theorem mem_childrenOf_of_parentF {pm : PMap} {v p : Node}
    (h : parentF pm v = some p) : v ∈ childrenOf pm p :=
  mem_childrenOf_iff.mpr (alook_mem (parentF_eq_some_iff.mp h))

theorem parentF_of_mem_childrenOf {pm : PMap} (hn : (pkeys pm).Nodup)
    {v p : Node} (h : v ∈ childrenOf pm p) : parentF pm v = some p := by
  rw [parentF_eq_some_iff]
  exact mem_alook hn (mem_childrenOf_iff.mp h)

theorem anc_add (pm : PMap) (a b : Nat) (v : Node) :
    anc pm (a + b) v = (anc pm a v).bind (anc pm b) := by
  induction a generalizing v with
  | zero => simp [anc]
  | succ a ih =>
    have : a + 1 + b = (a + b) + 1 := by omega
    rw [this]
    simp only [anc]
    cases parentF pm v with
    | none => simp
    | some p => simp [ih p]

theorem anc_one (pm : PMap) (v : Node) : anc pm 1 v = parentF pm v := by
  simp [anc]

theorem anc_succ_right (pm : PMap) (k : Nat) (v : Node) :
    anc pm (k + 1) v = (anc pm k v).bind (parentF pm) := by
  rw [anc_add pm k 1 v]
  cases anc pm k v with
  | none => simp
  | some a => simp [anc_one]

theorem anc_root_succ {pm : PMap} {root : Node} (hr : parentF pm root = none)
    (k : Nat) : anc pm (k + 1) root = none := by
  simp [anc, hr]

/-- Depth along the chain is unique: only one number of parent steps can
reach the root from a given node. -/
theorem anc_unique {pm : PMap} {root : Node} (hr : parentF pm root = none)
    {v : Node} {i j : Nat} (hi : anc pm i v = some root)
    (hj : anc pm j v = some root) : i = j := by
  rcases Nat.lt_trichotomy i j with hlt | heq | hgt
  · exfalso
    obtain ⟨d, rfl⟩ : ∃ d, j = i + (d + 1) := ⟨j - i - 1, by omega⟩
    rw [anc_add, hi] at hj
    simp [anc_root_succ hr] at hj
  · exact heq
  · exfalso
    obtain ⟨d, rfl⟩ : ∃ d, i = j + (d + 1) := ⟨i - j - 1, by omega⟩
    rw [anc_add, hj] at hi
    simp [anc_root_succ hr] at hi

/-- An ancestor at offset `i` of a node of chain-depth `d` has chain-depth
`d - i` (and `i ≤ d`). -/
theorem anc_offset {pm : PMap} {root : Node} (hr : parentF pm root = none)
    {v a : Node} {i d : Nat} (ha : anc pm i v = some a)
    (hd : anc pm d v = some root) : i ≤ d ∧ anc pm (d - i) a = some root := by
  by_cases hle : i ≤ d
  · refine ⟨hle, ?_⟩
    obtain ⟨e, rfl⟩ : ∃ e, d = i + e := ⟨d - i, by omega⟩
    rw [anc_add, ha] at hd
    simp at hd
    simpa [Nat.add_sub_cancel_left] using hd
  · exfalso
    obtain ⟨e, rfl⟩ : ∃ e, i = d + (e + 1) := ⟨i - d - 1, by omega⟩
    rw [anc_add, hd] at ha
    simp [anc_root_succ hr] at ha

/-! ## Breadth-first construction: loop invariant -/

theorem parentF_none_of_alook {pm : PMap} {root : Node}
    (hr : alook pm root = some none) : parentF pm root = none := by
  simp [parentF, hr]

theorem nodup_subset_length {α : Type} [DecidableEq α] {l L : List α}
    (hn : l.Nodup) (hsub : ∀ a ∈ l, a ∈ L) : l.length ≤ L.length := by
  calc l.length = l.toFinset.card := (List.toFinset_card_of_nodup hn).symm
    _ ≤ L.toFinset.card := by
        apply Finset.card_le_card
        intro a ha
        exact List.mem_toFinset.mpr (hsub a (List.mem_toFinset.mp ha))
    _ ≤ L.length := L.toFinset_card_le

/-- The invariant of the BFS loop of `Tree.__init__`: `order` holds the
already-dequeued nodes, `queue` the pending ones, `dep` the assigned
depths. -/
structure BfsInv (pm : PMap) (root : Node) (order queue : List Node)
    (dep : List (Node × Nat)) : Prop where
  nodupOQ : (order ++ queue).Nodup
  memKeys : ∀ v ∈ order ++ queue, v ∈ pkeys pm
  rootMem : root ∈ order ++ queue
  parentOrder : ∀ pre x post, order = pre ++ x :: post →
      x = root ∨ ∃ p, parentF pm x = some p ∧ p ∈ pre
  parentQueue : ∀ v ∈ queue, v = root ∨ ∃ p, parentF pm v = some p ∧ p ∈ order
  closed : ∀ u ∈ order, ∀ c ∈ childrenOf pm u, c ∈ order ++ queue
  depDom : ∀ v, (alook dep v).isSome ↔ v ∈ order ++ queue
  depSound : ∀ v k, alook dep v = some k → anc pm k v = some root

theorem bfsInv_init {pm : PMap} {root : Node} (hr : alook pm root = some none) :
    BfsInv pm root [] [root] [(root, 0)] where
  nodupOQ := by simp
  memKeys := by
    intro v hv
    simp at hv
    subst hv
    exact alook_isSome_iff.mp (by simp [hr])
  rootMem := by simp
  parentOrder := by
    intro pre x post h
    exact absurd h (by simp)
  parentQueue := by
    intro v hv
    simp at hv
    exact Or.inl hv
  closed := by intro u hu; simp at hu
  depDom := by
    intro v
    by_cases hvr : root = v <;> simp [alook, hvr]
    exact fun hh => hvr hh.symm
  depSound := by
    intro v k h
    by_cases hvr : root = v
    · subst hvr
      simp [alook] at h
      subst h
      simp [anc]
    · simp [alook, hvr] at h

theorem bfsInv_step {pm : PMap} {root : Node} {order queue : List Node}
    {dep : List (Node × Nat)} {u : Node} {du : Nat}
    (hk : (pkeys pm).Nodup) (hroot : parentF pm root = none)
    (inv : BfsInv pm root order (u :: queue) dep)
    (hdu : alook dep u = some du) :
    BfsInv pm root (order ++ [u]) (queue ++ childrenOf pm u)
      (((childrenOf pm u).map (fun c => (c, du + 1))) ++ dep) := by
  set cs := childrenOf pm u with hcs
  have hune : u ∉ order := by
    have := inv.nodupOQ
    rw [List.nodup_append] at this
    intro hu
    exact this.2.2 hu (by simp)
  have hcsnot : ∀ c ∈ cs, c ∉ order ++ u :: queue := by
    intro c hc hmem
    have hpc : parentF pm c = some u := parentF_of_mem_childrenOf hk hc
    rcases List.mem_append.mp hmem with hco | hcq
    · obtain ⟨pre, post, hpre⟩ := List.append_of_mem hco
      rcases inv.parentOrder pre c post hpre with hcr | ⟨p, hp, hpo⟩
      · subst hcr
        rw [hroot] at hpc
        exact Option.noConfusion hpc
      · rw [hpc] at hp
        obtain rfl : p = u := by injection hp.symm
        refine hune ?_
        rw [hpre]
        exact List.mem_append.mpr (Or.inl hpo)
    · rcases inv.parentQueue c hcq with hcr | ⟨p, hp, hpo⟩
      · subst hcr
        rw [hroot] at hpc
        exact Option.noConfusion hpc
      · rw [hpc] at hp
        obtain rfl : p = u := by injection hp.symm
        exact hune hpo
  have hsetEq : ∀ v, v ∈ (order ++ [u]) ++ (queue ++ cs) ↔
      v ∈ (order ++ u :: queue) ++ cs := by
    intro v
    simp [or_assoc, or_comm, or_left_comm]
  have hnodup : ((order ++ [u]) ++ (queue ++ cs)).Nodup := by
    have heq : (order ++ [u]) ++ (queue ++ cs) = (order ++ u :: queue) ++ cs := by
      simp
    rw [heq, List.nodup_append]
    exact ⟨inv.nodupOQ, childrenOf_nodup hk u,
      fun a ha hb => hcsnot a hb ha⟩
  refine ⟨hnodup, ?_, ?_, ?_, ?_, ?_, ?_, ?_⟩
  · intro v hv
    rw [hsetEq] at hv
    rcases List.mem_append.mp hv with hv | hv
    · exact inv.memKeys v hv
    · exact mem_pkeys_of_parentF (parentF_of_mem_childrenOf hk hv)
  · rw [hsetEq]
    exact List.mem_append.mpr (Or.inl inv.rootMem)
  · intro pre x post h
    rcases List.eq_nil_or_concat post with rfl | ⟨post2, q, rfl⟩
    · obtain ⟨ho, hx⟩ := List.append_inj' h rfl
      obtain rfl : u = x := by simpa using hx
      rcases inv.parentQueue u (by simp) with hur | ⟨p, hp, hpo⟩
      · exact Or.inl hur
      · subst ho
        exact Or.inr ⟨p, hp, hpo⟩
    · have h2 : order ++ [u] = (pre ++ x :: post2) ++ [q] := by
        rw [h]
        simp [List.concat_eq_append]
      obtain ⟨ho, hq⟩ := List.append_inj' h2 rfl
      exact inv.parentOrder pre x post2 ho
  · intro v hv
    rcases List.mem_append.mp hv with hv | hv
    · rcases inv.parentQueue v (by simp [hv]) with hur | ⟨p, hp, hpo⟩
      · exact Or.inl hur
      · exact Or.inr ⟨p, hp, by simp [hpo]⟩
    · exact Or.inr ⟨u, parentF_of_mem_childrenOf hk hv, by simp⟩
  · intro x hx c hc
    rw [hsetEq]
    rcases List.mem_append.mp hx with hx | hx
    · exact List.mem_append.mpr (Or.inl (inv.closed x hx c hc))
    · have hxu : x = u := by simpa using hx
      subst hxu
      exact List.mem_append.mpr (Or.inr hc)
  · intro v
    rw [hsetEq]
    have hfst : ((cs.map (fun c => (c, du + 1))).map (fun e => e.1)) = cs := by
      induction cs <;> simp [*]
    cases hcv : alook (cs.map (fun c => (c, du + 1))) v with
    | none =>
      have hvnot : v ∉ cs := by
        have hh := alook_eq_none_iff.mp hcv
        rwa [hfst] at hh
      rw [alook_append_none hcv, inv.depDom]
      constructor
      · intro hv
        exact List.mem_append.mpr (Or.inl hv)
      · intro hv
        rcases List.mem_append.mp hv with hv | hv
        · exact hv
        · exact absurd hv hvnot
    | some k =>
      have hvin : v ∈ cs := by
        have h1 : (alook (cs.map (fun c => (c, du + 1))) v).isSome := by
          simp [hcv]
        have h2 := alook_isSome_iff.mp h1
        rwa [hfst] at h2
      rw [alook_append_some hcv]
      simp only [Option.isSome_some, true_iff]
      exact List.mem_append.mpr (Or.inr hvin)
  · intro v k h
    cases hcv : alook (cs.map (fun c => (c, du + 1))) v with
    | none =>
      rw [alook_append_none hcv] at h
      exact inv.depSound v k h
    | some k' =>
      rw [alook_append_some hcv] at h
      obtain rfl : k' = k := by injection h
      have hmem : (v, k') ∈ cs.map (fun c => (c, du + 1)) := alook_mem hcv
      obtain ⟨c, hcmem, hce⟩ := List.mem_map.mp hmem
      obtain ⟨rfl, rfl⟩ := Prod.ext_iff.mp hce
      have hpc : parentF pm c = some u := parentF_of_mem_childrenOf hk hcmem
      have hu : anc pm du u = some root := inv.depSound u du hdu
      simp [anc, hpc, hu]

theorem bfsAux_inv {pm : PMap} {root : Node}
    (hk : (pkeys pm).Nodup) (hroot : parentF pm root = none) :
    ∀ fuel queue order dep order' dep',
      bfsAux pm fuel queue order dep = some (order', dep') →
      BfsInv pm root order queue dep →
      BfsInv pm root order' [] dep' := by
  intro fuel
  induction fuel with
  | zero =>
    intro queue order dep order' dep' h inv
    cases queue with
    | nil =>
      simp [bfsAux] at h
      obtain ⟨rfl, rfl⟩ := h
      exact inv
    | cons u q => simp [bfsAux] at h
  | succ fuel ih =>
    intro queue order dep order' dep' h inv
    cases queue with
    | nil =>
      simp [bfsAux] at h
      obtain ⟨rfl, rfl⟩ := h
      exact inv
    | cons u q =>
      simp only [bfsAux] at h
      cases hdu : alook dep u with
      | none => rw [hdu] at h; exact Option.noConfusion h
      | some du =>
        rw [hdu] at h
        exact ih _ _ _ _ _ h (bfsInv_step hk hroot inv hdu)

theorem bfsAux_total {pm : PMap} {root : Node}
    (hk : (pkeys pm).Nodup) (hroot : parentF pm root = none) :
    ∀ fuel queue order dep,
      BfsInv pm root order queue dep →
      (pkeys pm).length + 1 ≤ fuel + order.length →
      (bfsAux pm fuel queue order dep).isSome := by
  intro fuel
  induction fuel with
  | zero =>
    intro queue order dep inv hle
    exfalso
    have h1 : (order ++ queue).length ≤ (pkeys pm).length :=
      nodup_subset_length inv.nodupOQ inv.memKeys
    simp at h1
    omega
  | succ fuel ih =>
    intro queue order dep inv hle
    cases queue with
    | nil => simp [bfsAux]
    | cons u q =>
      have hu : (alook dep u).isSome := (inv.depDom u).mpr (by simp)
      obtain ⟨du, hdu⟩ := Option.isSome_iff_exists.mp hu
      simp only [bfsAux, hdu]
      apply ih
      · exact bfsInv_step hk hroot inv hdu
      · simp
        omega

/-- Everything the rest of the system may rely on about a successfully
constructed `Tree`. -/
structure TreeOK (t : TreeData) : Prop where
  keysNodup : (pkeys t.parent).Nodup
  rootNone : alook t.parent t.root = some none
  inv : BfsInv t.parent t.root t.bfsOrder [] t.depth
  covers : ∀ v ∈ pkeys t.parent, v ∈ t.bfsOrder

/-- A successful `Tree.__init__` establishes all the tree invariants. -/
theorem treeInit_ok {fuel : Nat} {root : Node} {pm : PMap} {t : TreeData}
    (hk : (pkeys pm).Nodup) (hr : alook pm root = some none)
    (h : treeInit fuel root pm = some (.ok t)) :
    t.root = root ∧ t.parent = pm ∧ TreeOK t := by
  have hroot : parentF pm root = none := parentF_none_of_alook hr
  unfold treeInit at h
  rw [if_pos (by simp [hr])] at h
  cases hb : bfsAux pm fuel [root] [] [(root, 0)] with
  | none => rw [hb] at h; exact Option.noConfusion h
  | some od =>
    obtain ⟨order, dep⟩ := od
    rw [hb] at h
    dsimp only at h
    by_cases hall : (pkeys pm).all (fun n => (alook dep n).isSome)
    · rw [if_pos hall] at h
      have ht : t = ⟨root, pm, order, dep⟩ := by
        have := Option.some.inj h
        exact (Except.ok.inj this).symm
      subst ht
      have hinv : BfsInv pm root order [] dep :=
        bfsAux_inv hk hroot fuel [root] [] [(root, 0)] order dep hb
          (bfsInv_init hr)
      refine ⟨rfl, rfl, ⟨hk, hr, hinv, ?_⟩⟩
      intro v hv
      have := List.all_eq_true.mp hall v hv
      have hmem := (hinv.depDom v).mp (by simpa using this)
      simpa using hmem
    · rw [if_neg hall] at h
      have := Option.some.inj h
      exact Except.noConfusion this

/-- Nodes whose chain reaches the root are enumerated by a finished BFS. -/
theorem bfsInv_coverage {pm : PMap} {root : Node} {order : List Node}
    {dep : List (Node × Nat)} (hk : (pkeys pm).Nodup)
    (inv : BfsInv pm root order [] dep) :
    ∀ k v, anc pm k v = some root → v ∈ order := by
  intro k
  induction k with
  | zero =>
    intro v h
    simp [anc] at h
    subst h
    simpa using inv.rootMem
  | succ k ih =>
    intro v h
    simp only [anc] at h
    cases hp : parentF pm v with
    | none => rw [hp] at h; exact Option.noConfusion h
    | some p =>
      rw [hp] at h
      simp at h
      have hpo : p ∈ order := ih p h
      have := inv.closed p hpo v (mem_childrenOf_of_parentF hp)
      simpa using this

/-- On a valid parent map the constructor succeeds (with enough fuel):
the BFS terminates and reaches every node. -/
theorem treeInit_ok_of_valid {root : Node} {pm : PMap}
    (hv : ValidPM root pm) (fuel : Nat)
    (hf : (pkeys pm).length + 1 ≤ fuel) :
    ∃ t, treeInit fuel root pm = some (.ok t) ∧ t.root = root ∧
      t.parent = pm := by
  obtain ⟨hk, hr, hreach⟩ := hv
  have hroot : parentF pm root = none := parentF_none_of_alook hr
  have hinv0 : BfsInv pm root [] [root] [(root, 0)] := bfsInv_init hr
  have htot := bfsAux_total hk hroot fuel [root] [] [(root, 0)] hinv0
    (by simpa using hf)
  obtain ⟨⟨order, dep⟩, hb⟩ := Option.isSome_iff_exists.mp htot
  have hinv : BfsInv pm root order [] dep :=
    bfsAux_inv hk hroot fuel [root] [] [(root, 0)] order dep hb hinv0
  have hall : (pkeys pm).all (fun n => (alook dep n).isSome) = true := by
    rw [List.all_eq_true]
    intro v hvk
    obtain ⟨k, hkv⟩ := hreach v hvk
    have hvo : v ∈ order := bfsInv_coverage hk hinv k v hkv
    simpa using (hinv.depDom v).mpr (by simpa using hvo)
  refine ⟨⟨root, pm, order, dep⟩, ?_, rfl, rfl⟩
  unfold treeInit
  rw [if_pos (by simp [hr]), hb]
  dsimp only
  rw [if_pos hall]

/-! ## Derived facts about constructed trees -/

theorem TreeOK.parentRootNone {t : TreeData} (ht : TreeOK t) :
    parentF t.parent t.root = none :=
  parentF_none_of_alook ht.rootNone

theorem TreeOK.rootKey {t : TreeData} (ht : TreeOK t) :
    t.root ∈ pkeys t.parent :=
  alook_isSome_iff.mp (by simp [ht.rootNone])

theorem TreeOK.orderNodup {t : TreeData} (ht : TreeOK t) :
    t.bfsOrder.Nodup := by
  have := ht.inv.nodupOQ
  simpa using this

theorem TreeOK.orderSubKeys {t : TreeData} (ht : TreeOK t) :
    ∀ v ∈ t.bfsOrder, v ∈ pkeys t.parent := by
  intro v hv
  exact ht.inv.memKeys v (by simpa using hv)

theorem TreeOK.orderPerm {t : TreeData} (ht : TreeOK t) :
    t.bfsOrder.Perm (pkeys t.parent) := by
  rw [List.perm_ext_iff_of_nodup ht.orderNodup ht.keysNodup]
  intro v
  exact ⟨fun h => ht.orderSubKeys v h, fun h => ht.covers v h⟩

theorem TreeOK.orderLen {t : TreeData} (ht : TreeOK t) :
    t.bfsOrder.length = (pkeys t.parent).length :=
  ht.orderPerm.length_eq

theorem TreeOK.depthTotal {t : TreeData} (ht : TreeOK t) {v : Node}
    (hv : v ∈ pkeys t.parent) : ∃ d, alook t.depth v = some d := by
  have := (ht.inv.depDom v).mpr (by simpa using ht.covers v hv)
  exact Option.isSome_iff_exists.mp this

theorem TreeOK.depthSound {t : TreeData} (ht : TreeOK t) {v : Node} {d : Nat}
    (h : alook t.depth v = some d) : anc t.parent d v = some t.root :=
  ht.inv.depSound v d h

theorem TreeOK.anc_mem_keys {t : TreeData} (ht : TreeOK t) {v a : Node}
    {i d : Nat} (hd : alook t.depth v = some d)
    (h : anc t.parent i v = some a) : a ∈ pkeys t.parent := by
  obtain ⟨hle, hroot⟩ := anc_offset ht.parentRootNone h (ht.depthSound hd)
  cases hdi : d - i with
  | zero =>
    rw [hdi] at hroot
    simp [anc] at hroot
    subst hroot
    exact ht.rootKey
  | succ e =>
    rw [hdi] at hroot
    simp only [anc] at hroot
    cases hp : parentF t.parent a with
    | none => rw [hp] at hroot; exact Option.noConfusion hroot
    | some p => exact mem_pkeys_of_parentF hp

/-- An ancestor at offset `i` of a node at depth `d` has depth `d - i`. -/
theorem TreeOK.depth_of_anc {t : TreeData} (ht : TreeOK t) {v a : Node}
    {i d : Nat} (hd : alook t.depth v = some d)
    (h : anc t.parent i v = some a) :
    i ≤ d ∧ alook t.depth a = some (d - i) := by
  obtain ⟨hle, hroot⟩ := anc_offset ht.parentRootNone h (ht.depthSound hd)
  refine ⟨hle, ?_⟩
  obtain ⟨da, hda⟩ := ht.depthTotal (ht.anc_mem_keys hd h)
  have := anc_unique ht.parentRootNone (ht.depthSound hda) hroot
  rw [hda, this]

theorem TreeOK.anc_isSome_iff {t : TreeData} (ht : TreeOK t) {v : Node}
    {i d : Nat} (hd : alook t.depth v = some d) :
    (anc t.parent i v).isSome ↔ i ≤ d := by
  constructor
  · intro h
    obtain ⟨a, ha⟩ := Option.isSome_iff_exists.mp h
    exact (ht.depth_of_anc hd ha).1
  · intro h
    obtain ⟨e, rfl⟩ : ∃ e, d = i + e := ⟨d - i, by omega⟩
    have := ht.depthSound hd
    rw [anc_add] at this
    cases hi : anc t.parent i v with
    | none => rw [hi] at this; exact Option.noConfusion this
    | some a => simp

theorem TreeOK.anc_none_of_gt {t : TreeData} (ht : TreeOK t) {v : Node}
    {i d : Nat} (hd : alook t.depth v = some d) (h : d < i) :
    anc t.parent i v = none := by
  cases hi : anc t.parent i v with
  | none => rfl
  | some a =>
    exfalso
    have := (ht.anc_isSome_iff hd).mp (by rw [hi]; rfl)
    omega

theorem TreeOK.depth_root {t : TreeData} (ht : TreeOK t) :
    alook t.depth t.root = some 0 := by
  obtain ⟨d, hd⟩ := ht.depthTotal ht.rootKey
  have h0 : anc t.parent 0 t.root = some t.root := by simp [anc]
  have := anc_unique ht.parentRootNone (ht.depthSound hd) h0
  rw [hd, this]

/-- Chain depths are bounded by the number of nodes: the chain from a node
to the root visits pairwise distinct keys. -/
theorem TreeOK.depth_lt {t : TreeData} (ht : TreeOK t) {v : Node} {d : Nat}
    (hd : alook t.depth v = some d) : d < (pkeys t.parent).length := by
  have hinj : ∀ i ∈ Finset.range (d + 1), ∀ j ∈ Finset.range (d + 1),
      (anc t.parent i v).getD 0 = (anc t.parent j v).getD 0 → i = j := by
    intro i hi j hj hij
    simp [Finset.mem_range] at hi hj
    obtain ⟨ai, hai⟩ := Option.isSome_iff_exists.mp
      ((ht.anc_isSome_iff hd).mpr (by omega : i ≤ d))
    obtain ⟨aj, haj⟩ := Option.isSome_iff_exists.mp
      ((ht.anc_isSome_iff hd).mpr (by omega : j ≤ d))
    rw [hai, haj] at hij
    simp at hij
    subst hij
    have h1 := (ht.depth_of_anc hd hai).2
    have h2 := (ht.depth_of_anc hd haj).2
    rw [h1] at h2
    have : d - i = d - j := by injection h2
    omega
  have hmaps : ∀ i ∈ Finset.range (d + 1),
      (anc t.parent i v).getD 0 ∈ (pkeys t.parent).toFinset := by
    intro i hi
    simp [Finset.mem_range] at hi
    obtain ⟨a, ha⟩ := Option.isSome_iff_exists.mp
      ((ht.anc_isSome_iff hd).mpr (by omega : i ≤ d))
    rw [ha]
    simp
    exact ht.anc_mem_keys hd ha
  have hcard := Finset.card_le_card_of_injOn _ hmaps hinj
  simp at hcard
  have := (pkeys t.parent).toFinset_card_le
  omega

/-! ## The binary-lifting LCA table (`core/lca.py`) -/

/-- Structurally recursive ceiling base-2 logarithm (fuel-indexed); proven
equal to Mathlib.s Nat.clog below so that concrete instances evaluate. -/
def clog2Aux : Nat → Nat → Nat
  | _, 0 => 0
  | _, 1 => 0
  | 0, _ => 0
  | fuel + 1, n => clog2Aux fuel ((n + 1) / 2) + 1

/-- Ceiling base-2 logarithm, `clog2 n = Nat.clog 2 n`. -/
def clog2 (n : Nat) : Nat := clog2Aux n n

theorem clog2Aux_eq (fuel : Nat) : ∀ n, n ≤ fuel + 1 →
    clog2Aux fuel n = Nat.clog 2 n := by
  induction fuel with
  | zero =>
    intro n h
    interval_cases n
    · simp [clog2Aux, Nat.clog_of_right_le_one]
    · simp [clog2Aux, Nat.clog_of_right_le_one]
  | succ f ih =>
    intro n h
    match n with
    | 0 => simp [clog2Aux, Nat.clog_of_right_le_one]
    | 1 => simp [clog2Aux, Nat.clog_of_right_le_one]
    | (m + 2) =>
      have hstep : clog2Aux (f + 1) (m + 2) =
          clog2Aux f ((m + 2 + 1) / 2) + 1 := rfl
      have harg : (m + 2 + 2 - 1) / 2 = (m + 2 + 1) / 2 := by omega
      rw [hstep, ih _ (by omega),
        @Nat.clog_of_two_le 2 (m + 2) (by norm_num) (by omega), harg]

theorem clog2_eq (n : Nat) : clog2 n = Nat.clog 2 n :=
  clog2Aux_eq n n (Nat.le_succ n)

/-- Model of `self.max_log = ceil(log2(len(self.nodes))) if self.nodes else 0`. -/
def maxLog (t : TreeData) : Nat := clog2 t.bfsOrder.length

/-- Table `up[k][v]`: `up[0] = parent`, `up[k][v] = up[k-1].get(up[k-1][v])`
with `None` absorbing; nodes outside the table read as `None` exactly as
`dict.get` does. -/
def upt (pm : PMap) : Nat → Node → Option Node
  | 0, v => parentF pm v
  | k + 1, v => (upt pm k v).bind (upt pm k)

/-- The depth-equalising loop of `LCA.lca`:
`for k in range(K + 1): if diff & (1 << k): u = up[k][u]` (the `break` on
`None` agrees with `Option.bind`). -/
def liftList (pm : PMap) (diff : Nat) : List Nat → Option Node → Option Node
  | [], ou => ou
  | k :: ks, ou =>
      liftList pm diff ks (if diff.testBit k then ou.bind (upt pm k) else ou)

/-- The joint-lifting loop of `LCA.lca`, from level `k` down to level `0`:
whenever `up[k][u] != up[k][v]` both nodes are lifted.  A `none` result
models the `KeyError` raised when a lifted node has become `None` and is
then used as a dict key. -/
def lcaDescend (pm : PMap) : Nat → Node → Node → Option (Node × Node)
  | 0, u, v =>
    if upt pm 0 u = upt pm 0 v then some (u, v)
    else
      match upt pm 0 u, upt pm 0 v with
      | some u2, some v2 => some (u2, v2)
      | _, _ => none
  | k + 1, u, v =>
    if upt pm (k + 1) u = upt pm (k + 1) v then lcaDescend pm k u v
    else
      match upt pm (k + 1) u, upt pm (k + 1) v with
      | some u2, some v2 => lcaDescend pm k u2 v2
      | _, _ => none

/-- The body of `LCA.lca` after the depth-based swap, for the pair
`(x, y)` with `diff = depth[x] - depth[y]`: equalise depths, return on
equality, otherwise jointly lift and return `parent[u]`. -/
def lcaSteps (t : TreeData) (diff : Nat) (x y : Node) : Option Node :=
  match liftList t.parent diff (List.range (maxLog t + 1)) (some x) with
  | none => none
  | some x1 =>
    if x1 = y then some x1
    else
      match lcaDescend t.parent (maxLog t) x1 y with
      | none => none
      | some (uf, _) => parentF t.parent uf

/-- Model of `LCA.lca(u, v)`.  Here `none` models abnormal behaviour: a `KeyError` on a
depth or parent lookup, or the untyped `None` returned when the walk
escapes past the root. -/
def lcaFun (t : TreeData) (u v : Node) : Option Node :=
  match alook t.depth u, alook t.depth v with
  | some du, some dv =>
    if du < dv then lcaSteps t (dv - du) v u else lcaSteps t (du - dv) u v
  | _, _ => none

/-! ## LCA correctness -/

theorem TreeOK.key_of_depth {t : TreeData} (ht : TreeOK t) {v : Node}
    {d : Nat} (hd : alook t.depth v = some d) : v ∈ pkeys t.parent := by
  have hmem := (ht.inv.depDom v).mp (by rw [hd]; rfl)
  exact ht.orderSubKeys v (by simpa using hmem)

theorem isAnc_refl (pm : PMap) (v : Node) : isAnc pm v v :=
  ⟨0, by simp [anc]⟩

theorem isAnc_trans {pm : PMap} {a b c : Node} (h₁ : isAnc pm a b)
    (h₂ : isAnc pm b c) : isAnc pm a c := by
  obtain ⟨i, hi⟩ := h₁
  obtain ⟨j, hj⟩ := h₂
  exact ⟨j + i, by rw [anc_add, hj]; simpa using hi⟩

/-- Common ancestor of two nodes. -/
def commonAnc (pm : PMap) (a u v : Node) : Prop := isAnc pm a u ∧ isAnc pm a v

theorem upt_eq_anc (pm : PMap) : ∀ k v, upt pm k v = anc pm (2 ^ k) v := by
  intro k
  induction k with
  | zero => intro v; rw [pow_zero, upt, ← anc_one]
  | succ k ih =>
    intro v
    show (upt pm k v).bind (upt pm k) = _
    have h2 : (2 : Nat) ^ (k + 1) = 2 ^ k + 2 ^ k := by
      rw [pow_succ]
      omega
    rw [h2, anc_add, ih]
    cases anc pm (2 ^ k) v with
    | none => simp
    | some a => simp [ih a]

theorem liftList_append (pm : PMap) (diff : Nat) (l₁ l₂ : List Nat)
    (ou : Option Node) :
    liftList pm diff (l₁ ++ l₂) ou =
      liftList pm diff l₂ (liftList pm diff l₁ ou) := by
  induction l₁ generalizing ou with
  | nil => simp [liftList]
  | cons k ks ih => simp [liftList, ih]

theorem liftList_range (pm : PMap) (diff : Nat) : ∀ n (ou : Option Node),
    liftList pm diff (List.range n) ou = ou.bind (anc pm (diff % 2 ^ n)) := by
  intro n
  induction n with
  | zero =>
    intro ou
    rw [List.range_zero]
    show ou = ou.bind (anc pm (diff % 2 ^ 0))
    rw [pow_zero, Nat.mod_one]
    cases ou <;> simp [anc]
  | succ n ih =>
    intro ou
    rw [List.range_succ, liftList_append, ih]
    show (if diff.testBit n then _ else _) = _
    have hsplit : diff % 2 ^ (n + 1) =
        diff % 2 ^ n + 2 ^ n * (diff / 2 ^ n % 2) := by
      rw [pow_succ]
      exact Nat.mod_mul
    by_cases hbit : diff.testBit n
    · have h1 : diff / 2 ^ n % 2 = 1 := by
        rw [Nat.testBit_to_div_mod] at hbit
        exact of_decide_eq_true hbit
      have hexp : diff % 2 ^ (n + 1) = diff % 2 ^ n + 2 ^ n := by
        rw [hsplit, h1]
        omega
      rw [if_pos hbit, hexp]
      simp only [upt_eq_anc]
      cases ou with
      | none => simp
      | some v => simp [anc_add]
    · have h0 : diff / 2 ^ n % 2 = 0 := by
        rw [Nat.testBit_to_div_mod] at hbit
        simp at hbit
        omega
      rw [if_neg hbit, hsplit, h0, Nat.mul_zero, Nat.add_zero]

/-- Lifting both members of an equal-depth distinct pair by `2 ^ k` when
their `2 ^ k`-ancestors differ: both ancestors exist, depths stay equal,
and the set of common ancestors is unchanged. -/
theorem lift_both {t : TreeData} (ht : TreeOK t) {u v : Node} {d k : Nat}
    (hud : alook t.depth u = some d) (hvd : alook t.depth v = some d)
    (hne : upt t.parent k u ≠ upt t.parent k v) :
    ∃ u2 v2, upt t.parent k u = some u2 ∧ upt t.parent k v = some v2 ∧
      alook t.depth u2 = some (d - 2 ^ k) ∧
      alook t.depth v2 = some (d - 2 ^ k) ∧ 2 ^ k ≤ d ∧ u2 ≠ v2 ∧
      ∀ a, commonAnc t.parent a u2 v2 ↔ commonAnc t.parent a u v := by
  rw [upt_eq_anc, upt_eq_anc] at hne
  by_cases hkd : 2 ^ k ≤ d
  · obtain ⟨u2, hu2⟩ := Option.isSome_iff_exists.mp
      ((ht.anc_isSome_iff hud).mpr hkd)
    obtain ⟨v2, hv2⟩ := Option.isSome_iff_exists.mp
      ((ht.anc_isSome_iff hvd).mpr hkd)
    have hu2d := (ht.depth_of_anc hud hu2).2
    have hv2d := (ht.depth_of_anc hvd hv2).2
    have hne2 : u2 ≠ v2 := by
      rintro rfl
      rw [hu2, hv2] at hne
      exact hne rfl
    refine ⟨u2, v2, by rw [upt_eq_anc]; exact hu2, by rw [upt_eq_anc]; exact hv2,
      hu2d, hv2d, hkd, hne2, ?_⟩
    intro a
    constructor
    · rintro ⟨⟨i, hi⟩, ⟨j, hj⟩⟩
      refine ⟨⟨2 ^ k + i, ?_⟩, ⟨2 ^ k + j, ?_⟩⟩
      · rw [anc_add, hu2]
        simpa using hi
      · rw [anc_add, hv2]
        simpa using hj
    · rintro ⟨⟨i, hi⟩, ⟨j, hj⟩⟩
      obtain ⟨hid, hia⟩ := ht.depth_of_anc hud hi
      obtain ⟨hjd, hja⟩ := ht.depth_of_anc hvd hj
      have hij : i = j := by
        rw [hia] at hja
        have : d - i = d - j := by injection hja
        omega
      subst hij
      by_cases hik : i ≤ 2 ^ k
      · exfalso
        apply hne
        obtain ⟨e, he⟩ : ∃ e, 2 ^ k = i + e := ⟨2 ^ k - i, by omega⟩
        rw [he, anc_add, anc_add, hi, hj]
      · have h1 : anc t.parent (i - 2 ^ k) u2 = some a := by
          obtain ⟨e, he⟩ : ∃ e, i = 2 ^ k + e := ⟨i - 2 ^ k, by omega⟩
          rw [he, anc_add, hu2] at hi
          have : i - 2 ^ k = e := by omega
          rw [this]
          simpa using hi
        have h2 : anc t.parent (i - 2 ^ k) v2 = some a := by
          obtain ⟨e, he⟩ : ∃ e, i = 2 ^ k + e := ⟨i - 2 ^ k, by omega⟩
          rw [he, anc_add, hv2] at hj
          have : i - 2 ^ k = e := by omega
          rw [this]
          simpa using hj
        exact ⟨⟨i - 2 ^ k, h1⟩, ⟨i - 2 ^ k, h2⟩⟩
  · exfalso
    apply hne
    rw [ht.anc_none_of_gt hud (by omega), ht.anc_none_of_gt hvd (by omega)]

/-- The joint-lifting loop: from agreement at height `2 ^ (k + 1)` it
produces an equal-depth distinct pair with equal parents and the same
common ancestors. -/
theorem lcaDescend_spec {t : TreeData} (ht : TreeOK t) :
    ∀ k u v d, alook t.depth u = some d → alook t.depth v = some d →
      u ≠ v →
      anc t.parent (2 ^ (k + 1)) u = anc t.parent (2 ^ (k + 1)) v →
      ∃ uf vf df, lcaDescend t.parent k u v = some (uf, vf) ∧
        alook t.depth uf = some df ∧ alook t.depth vf = some df ∧
        uf ≠ vf ∧ parentF t.parent uf = parentF t.parent vf ∧
        ∀ a, commonAnc t.parent a uf vf ↔ commonAnc t.parent a u v := by
  intro k
  induction k with
  | zero =>
    intro u v d hud hvd hne hagree
    by_cases heq : upt t.parent 0 u = upt t.parent 0 v
    · refine ⟨u, v, d, ?_, hud, hvd, hne, heq, fun a => Iff.rfl⟩
      simp [lcaDescend, heq]
    · obtain ⟨u2, v2, hu2, hv2, hu2d, hv2d, hkd, hne2, hCA⟩ :=
        lift_both ht hud hvd heq
      refine ⟨u2, v2, d - 2 ^ 0, ?_, hu2d, hv2d, hne2, ?_, hCA⟩
      · simp only [lcaDescend]
        rw [if_neg heq, hu2, hv2]
      · have h2 : (2 : Nat) ^ (0 + 1) = 1 + 1 := by norm_num
        rw [h2, anc_add, anc_add] at hagree
        rw [upt_eq_anc, pow_zero] at hu2 hv2
        rw [hu2, hv2] at hagree
        simp only [Option.some_bind] at hagree
        rw [← anc_one, ← anc_one]
        exact hagree
  | succ k ih =>
    intro u v d hud hvd hne hagree
    by_cases heq : upt t.parent (k + 1) u = upt t.parent (k + 1) v
    · have hagree2 : anc t.parent (2 ^ (k + 1)) u =
          anc t.parent (2 ^ (k + 1)) v := by
        rw [upt_eq_anc, upt_eq_anc] at heq
        exact heq
      obtain ⟨uf, vf, df, hrun, h1, h2, h3, h4, h5⟩ :=
        ih u v d hud hvd hne hagree2
      refine ⟨uf, vf, df, ?_, h1, h2, h3, h4, h5⟩
      simp only [lcaDescend, if_pos heq]
      exact hrun
    · obtain ⟨u2, v2, hu2, hv2, hu2d, hv2d, hkd, hne2, hCA⟩ :=
        lift_both ht hud hvd heq
      have hagree2 : anc t.parent (2 ^ (k + 1)) u2 =
          anc t.parent (2 ^ (k + 1)) v2 := by
        have hsplit : (2 : Nat) ^ (k + 1 + 1) = 2 ^ (k + 1) + 2 ^ (k + 1) := by
          rw [pow_succ]
          omega
        rw [hsplit, anc_add, anc_add] at hagree
        rw [upt_eq_anc] at hu2 hv2
        rw [hu2, hv2] at hagree
        simpa using hagree
      obtain ⟨uf, vf, df, hrun, h1, h2, h3, h4, h5⟩ :=
        ih u2 v2 (d - 2 ^ (k + 1)) hu2d hv2d hne2 hagree2
      refine ⟨uf, vf, df, ?_, h1, h2, h3, h4, ?_⟩
      · simp only [lcaDescend]
        rw [if_neg heq, hu2, hv2]
        exact hrun
      · intro a
        exact (h5 a).trans (hCA a)

theorem TreeOK.depth_le_of_isAnc {t : TreeData} (ht : TreeOK t)
    {a v : Node} {da dv : Nat} (h : isAnc t.parent a v)
    (hv : alook t.depth v = some dv) (ha : alook t.depth a = some da) :
    da ≤ dv := by
  obtain ⟨j, hj⟩ := h
  have := (ht.depth_of_anc hv hj).2
  rw [ha] at this
  have heq : da = dv - j := by injection this
  omega

theorem TreeOK.root_of_parentF_none {t : TreeData} (ht : TreeOK t)
    {z : Node} {dz : Nat} (hdz : alook t.depth z = some dz)
    (hpz : parentF t.parent z = none) : z = t.root := by
  have hs := ht.depthSound hdz
  cases dz with
  | zero =>
    simp [anc] at hs
    exact hs
  | succ e =>
    rw [anc] at hs
    rw [hpz] at hs
    exact Option.noConfusion hs

/-- The post-swap body of `LCA.lca` returns the deepest common ancestor
of `x` and `y`, for `depth[y] ≤ depth[x]`. -/
theorem lcaSteps_spec {t : TreeData} (ht : TreeOK t) {x y : Node}
    {dx dy : Nat} (hdx : alook t.depth x = some dx)
    (hdy : alook t.depth y = some dy) (hle : dy ≤ dx) :
    ∃ w dw, lcaSteps t (dx - dy) x y = some w ∧
      alook t.depth w = some dw ∧ dw ≤ dy ∧
      isAnc t.parent w x ∧ isAnc t.parent w y ∧
      ∀ a, isAnc t.parent a x → isAnc t.parent a y → isAnc t.parent a w := by
  have hxlt : dx < (pkeys t.parent).length := ht.depth_lt hdx
  have hpow : (pkeys t.parent).length ≤ 2 ^ maxLog t := by
    have h1 : t.bfsOrder.length ≤ 2 ^ maxLog t := by
      rw [maxLog, clog2_eq]
      exact Nat.le_pow_clog (by norm_num) _
    rw [← ht.orderLen]
    exact h1
  have hpow2 : (2 : Nat) ^ maxLog t < 2 ^ (maxLog t + 1) := by
    have : (2 : Nat) ^ (maxLog t + 1) = 2 * 2 ^ maxLog t := by
      rw [pow_succ]
      omega
    omega
  have hdiff : dx - dy < 2 ^ (maxLog t + 1) := by omega
  have hlift : liftList t.parent (dx - dy) (List.range (maxLog t + 1))
      (some x) = anc t.parent (dx - dy) x := by
    rw [liftList_range, Nat.mod_eq_of_lt hdiff]
    simp
  obtain ⟨x1, hx1⟩ := Option.isSome_iff_exists.mp
    ((ht.anc_isSome_iff hdx).mpr (by omega : dx - dy ≤ dx))
  have hx1d : alook t.depth x1 = some dy := by
    have h := (ht.depth_of_anc hdx hx1).2
    rwa [(by omega : dx - (dx - dy) = dy)] at h
  have hxanc : isAnc t.parent x1 x := ⟨dx - dy, hx1⟩
  have hCAx1 : ∀ a, isAnc t.parent a x → isAnc t.parent a y →
      isAnc t.parent a x1 := by
    intro a ⟨i, hi⟩ ⟨j, hj⟩
    obtain ⟨hid, hia⟩ := ht.depth_of_anc hdx hi
    obtain ⟨hjd, hja⟩ := ht.depth_of_anc hdy hj
    have hij : dx - i = dy - j := by
      rw [hia] at hja
      injection hja
    have hige : dx - dy ≤ i := by omega
    obtain ⟨e, he⟩ : ∃ e, i = (dx - dy) + e := ⟨i - (dx - dy), by omega⟩
    rw [he, anc_add, hx1] at hi
    exact ⟨e, by simpa using hi⟩
  by_cases hx1y : x1 = y
  · subst hx1y
    refine ⟨x1, dy, ?_, hx1d, le_refl _, hxanc, isAnc_refl _ _, ?_⟩
    · simp only [lcaSteps]
      rw [hlift, hx1]
      dsimp only
      rw [if_pos rfl]
    · intro a _ ha
      exact ha
  · have hagree : anc t.parent (2 ^ (maxLog t + 1)) x1 =
        anc t.parent (2 ^ (maxLog t + 1)) y := by
      rw [ht.anc_none_of_gt hx1d (by omega), ht.anc_none_of_gt hdy (by omega)]
    obtain ⟨uf, vf, df, hrun, hufd, hvfd, hfne, hfpar, hfCA⟩ :=
      lcaDescend_spec ht (maxLog t) x1 y dy hx1d hdy hx1y hagree
    cases hw : parentF t.parent uf with
    | none =>
      exfalso
      have h1 : uf = t.root := ht.root_of_parentF_none hufd hw
      have h2 : vf = t.root := ht.root_of_parentF_none hvfd (by
        rw [← hfpar]
        exact hw)
      exact hfne (h1.trans h2.symm)
    | some w =>
      have hwuf : isAnc t.parent w uf := ⟨1, by rw [anc_one]; exact hw⟩
      have hwvf : isAnc t.parent w vf := ⟨1, by
        rw [anc_one, ← hfpar]
        exact hw⟩
      obtain ⟨hwx1, hwy⟩ := (hfCA w).mp ⟨hwuf, hwvf⟩
      obtain ⟨h1df, hwd⟩ := ht.depth_of_anc hufd
        (by rw [anc_one]; exact hw : anc t.parent 1 uf = some w)
      refine ⟨w, df - 1, ?_, hwd, ?_, isAnc_trans hwx1 hxanc, hwy, ?_⟩
      · simp only [lcaSteps]
        rw [hlift, hx1]
        dsimp only
        rw [if_neg hx1y, hrun]
        exact hw
      · exact ht.depth_le_of_isAnc hwy hdy hwd
      · intro a hax hay
        have hax1 : isAnc t.parent a x1 := hCAx1 a hax hay
        obtain ⟨⟨i, hi⟩, ⟨j, hj⟩⟩ := (hfCA a).mpr ⟨hax1, hay⟩
        obtain ⟨hid, hia⟩ := ht.depth_of_anc hufd hi
        obtain ⟨hjd, hja⟩ := ht.depth_of_anc hvfd hj
        have hij : i = j := by
          rw [hia] at hja
          have : df - i = df - j := by injection hja
          omega
        have hi1 : 1 ≤ i := by
          by_contra hcon
          have hi0 : i = 0 := by omega
          subst hi0
          have hau : uf = a := by
            simpa [anc] using hi
          have hj0 : j = 0 := hij.symm
          subst hj0
          have hav : vf = a := by
            simpa [anc] using hj
          exact hfne (hau.trans hav.symm)
        obtain ⟨e, he⟩ : ∃ e, i = 1 + e := ⟨i - 1, by omega⟩
        rw [he, anc_add, anc_one, hw] at hi
        exact ⟨e, by simpa using hi⟩

/-- LCA correctness at the `lcaFun` level, for nodes with assigned
depths. -/
theorem lcaFun_spec {t : TreeData} (ht : TreeOK t) {u v : Node}
    {du dv : Nat} (hdu : alook t.depth u = some du)
    (hdv : alook t.depth v = some dv) :
    ∃ w dw, lcaFun t u v = some w ∧ alook t.depth w = some dw ∧
      dw ≤ min du dv ∧ isAnc t.parent w u ∧ isAnc t.parent w v ∧
      ∀ a, isAnc t.parent a u → isAnc t.parent a v →
        isAnc t.parent a w := by
  unfold lcaFun
  rw [hdu, hdv]
  dsimp only
  by_cases hc : du < dv
  · rw [if_pos hc]
    obtain ⟨w, dw, hrun, hwd, hwle, hwv, hwu, hdeep⟩ :=
      lcaSteps_spec ht hdv hdu (Nat.le_of_lt hc)
    exact ⟨w, dw, hrun, hwd, by omega, hwu, hwv,
      fun a hau hav => hdeep a hav hau⟩
  · rw [if_neg hc]
    obtain ⟨w, dw, hrun, hwd, hwle, hwu, hwv, hdeep⟩ :=
      lcaSteps_spec ht hdu hdv (by omega)
    exact ⟨w, dw, hrun, hwd, by omega, hwu, hwv, hdeep⟩

/-- Claim **C5.** For every constructed tree and nodes `u`, `v` of the tree,
`LCA.lca(u, v)` returns a node that is an ancestor of `u` and an ancestor
of `v` under the tree's parent map, whose depth is at most
`min(depth[u], depth[v])`; moreover it is the deepest common ancestor:
every common ancestor of `u` and `v` is an ancestor of the returned node
(hence lies no deeper). -/
theorem c5_lca_correct (fuel : Nat) (root : Node) (pm : PMap)
    (t : TreeData) (u v : Node)
    (hk : (pkeys pm).Nodup) (hr : alook pm root = some none)
    (hinit : treeInit fuel root pm = some (Except.ok t))
    (hu : u ∈ pkeys pm) (hv : v ∈ pkeys pm) :
    ∃ w du dv dw, lcaFun t u v = some w ∧
      alook t.depth u = some du ∧ alook t.depth v = some dv ∧
      alook t.depth w = some dw ∧
      isAnc t.parent w u ∧ isAnc t.parent w v ∧ dw ≤ min du dv ∧
      ∀ a, isAnc t.parent a u → isAnc t.parent a v →
        ∃ da, alook t.depth a = some da ∧ da ≤ dw ∧
          isAnc t.parent a w := by
  obtain ⟨hroot, hpar, ht⟩ := treeInit_ok hk hr hinit
  subst hpar
  obtain ⟨du, hdu⟩ := ht.depthTotal hu
  obtain ⟨dv, hdv⟩ := ht.depthTotal hv
  obtain ⟨w, dw, hrun, hwd, hwle, hwu, hwv, hdeep⟩ := lcaFun_spec ht hdu hdv
  refine ⟨w, du, dv, dw, hrun, hdu, hdv, hwd, hwu, hwv, hwle, ?_⟩
  intro a hau hav
  have haw := hdeep a hau hav
  obtain ⟨e, he⟩ := hdeep a hau hav
  obtain ⟨hed, had⟩ := ht.depth_of_anc hwd he
  exact ⟨dw - e, had, by omega, haw⟩

/-- The path tree `A - B - C` rooted at `A`, with labels `A = 0`,
`B = 1`, `C = 2`: the parent map of spec scenario S1. -/
def triPM : PMap := [(0, none), (1, some 0), (2, some 1)]

/-- The `TreeData` produced by `Tree.__init__` on `triPM`. -/
def triTree : TreeData := ⟨0, triPM, [0, 1, 2], [(2, 2), (1, 1), (0, 0)]⟩

theorem c5_lca_correct_witness :
    (pkeys triPM).Nodup ∧ alook triPM 0 = some none ∧
    treeInit 10 0 triPM = some (Except.ok triTree) ∧
    (1 : Node) ∈ pkeys triPM ∧ (2 : Node) ∈ pkeys triPM ∧
    (∃ w du dv dw, lcaFun triTree 1 2 = some w ∧
      alook triTree.depth 1 = some du ∧ alook triTree.depth 2 = some dv ∧
      alook triTree.depth w = some dw ∧
      isAnc triTree.parent w 1 ∧ isAnc triTree.parent w 2 ∧
      dw ≤ min du dv ∧
      ∀ a, isAnc triTree.parent a 1 → isAnc triTree.parent a 2 →
        ∃ da, alook triTree.depth a = some da ∧ da ≤ dw ∧
          isAnc triTree.parent a w) :=
  ⟨by decide, rfl, rfl, by decide, by decide,
    c5_lca_correct 10 0 triPM triTree 1 2 (by decide) rfl rfl
      (by decide) (by decide)⟩

/-! ## Path sums: `LCA.set_edge_weights` (`core/lca.py`) -/

/-- Oriented-edge weight maps `(parent, child) → float`. -/
abbrev WMap := List ((Node × Node) × ℚ)

/-- The recomputation loop of `LCA.set_edge_weights`: one pass over
`bfs_order`, skipping the root; `prefix[node] = prefix[parent] +
weights.get((parent, node), 0.0)`.  `none` models the raised
`ValueError` (non-root with `None` parent) or `KeyError` (missing dict
entry). -/
def sewLoop (t : TreeData) (w : WMap) :
    List Node → List (Node × ℚ) → Option (List (Node × ℚ))
  | [], acc => some acc
  | v :: rest, acc =>
    if v = t.root then sewLoop t w rest acc
    else
      match alook t.parent v with
      | none => none
      | some none => none
      | some (some p) =>
        match alook acc p with
        | none => none
        | some pp =>
          sewLoop t w rest (acc ++ [(v, pp + (alook w (p, v)).getD 0)])

/-- Model of `LCA.set_edge_weights(weights)`: returns the recomputed `prefix`
map (the stored copy of `weights` is the argument itself). -/
def setEdgeWeights (t : TreeData) (w : WMap) : Option (List (Node × ℚ)) :=
  sewLoop t w t.bfsOrder [(t.root, 0)]

/-- Sum of the stored weights along the chain from `v` up `k` steps
towards the root (specification vocabulary). -/
def chainSum (pm : PMap) (w : WMap) : Nat → Node → ℚ
  | 0, _ => 0
  | k + 1, v =>
    match parentF pm v with
    | none => 0
    | some p => chainSum pm w k p + (alook w (p, v)).getD 0

theorem TreeOK.depth_child {t : TreeData} (ht : TreeOK t) {c p : Node}
    {dp : Nat} (hpc : parentF t.parent c = some p)
    (hdp : alook t.depth p = some dp) :
    alook t.depth c = some (dp + 1) := by
  have hck : c ∈ pkeys t.parent := mem_pkeys_of_parentF hpc
  obtain ⟨dc, hdc⟩ := ht.depthTotal hck
  have hanc : anc t.parent (dp + 1) c = some t.root := by
    rw [anc, hpc]
    simpa using ht.depthSound hdp
  have := anc_unique ht.parentRootNone (ht.depthSound hdc) hanc
  rw [hdc, this]

theorem sewLoop_spec {t : TreeData} (ht : TreeOK t) (w : WMap) :
    ∀ rest done acc,
      t.bfsOrder = done ++ rest →
      (∀ x, (alook acc x).isSome ↔ (x = t.root ∨ x ∈ done)) →
      (∀ x q, alook acc x = some q →
        ∃ d, alook t.depth x = some d ∧ q = chainSum t.parent w d x) →
      ∃ res, sewLoop t w rest acc = some res ∧
        (∀ x, (alook res x).isSome ↔ (x = t.root ∨ x ∈ t.bfsOrder)) ∧
        (∀ x q, alook res x = some q →
          ∃ d, alook t.depth x = some d ∧ q = chainSum t.parent w d x) := by
  intro rest
  induction rest with
  | nil =>
    intro done acc hsplit hdom hval
    refine ⟨acc, rfl, ?_, hval⟩
    intro x
    rw [hdom x, hsplit]
    simp
  | cons v rest ih =>
    intro done acc hsplit hdom hval
    by_cases hvr : v = t.root
    · subst hvr
      simp only [sewLoop, if_pos rfl]
      refine ih (done ++ [t.root]) acc (by rw [hsplit]; simp) ?_ hval
      intro x
      rw [hdom x]
      by_cases hx : x = t.root <;> simp [hx]
    · have hvmem : v ∈ t.bfsOrder := by rw [hsplit]; simp
      have hvk : v ∈ pkeys t.parent := ht.orderSubKeys v hvmem
      rcases ht.inv.parentOrder done v rest hsplit with hroot | ⟨p, hp, hpdone⟩
      · exact absurd hroot hvr
      have hpacc : (alook acc p).isSome := (hdom p).mpr (Or.inr hpdone)
      obtain ⟨pp, hpp⟩ := Option.isSome_iff_exists.mp hpacc
      obtain ⟨dp, hdp, hppval⟩ := hval p pp hpp
      have hdc : alook t.depth v = some (dp + 1) := ht.depth_child hp hdp
      have hvnone : alook acc v = none := by
        cases hav : alook acc v with
        | none => rfl
        | some q =>
          exfalso
          rcases (hdom v).mp (by rw [hav]; rfl) with h | h
          · exact hvr h
          · have hnd := ht.orderNodup
            rw [hsplit, List.nodup_append] at hnd
            exact hnd.2.2 h (by simp)
      have hdom2 : ∀ x, (alook (acc ++ [(v, pp + (alook w (p, v)).getD 0)])
          x).isSome ↔ (x = t.root ∨ x ∈ done ++ [v]) := by
        intro x
        by_cases hxv : x = v
        · subst hxv
          rw [alook_append_none hvnone]
          simp [alook]
        · have hax : alook (acc ++ [(v, pp + (alook w (p, v)).getD 0)]) x =
              alook acc x := by
            rw [alook_append]
            cases hax : alook acc x
            · simp [alook, Ne.symm hxv]
            · rfl
          rw [hax, hdom x]
          simp [hxv]
      have hval2 : ∀ x q,
          alook (acc ++ [(v, pp + (alook w (p, v)).getD 0)]) x = some q →
          ∃ d, alook t.depth x = some d ∧ q = chainSum t.parent w d x := by
        intro x q hq
        by_cases hxv : x = v
        · subst hxv
          rw [alook_append_none hvnone] at hq
          simp [alook] at hq
          refine ⟨dp + 1, hdc, ?_⟩
          rw [← hq, chainSum]
          rw [hp, hppval]
        · have hax : alook (acc ++ [(v, pp + (alook w (p, v)).getD 0)]) x =
              alook acc x := by
            rw [alook_append]
            cases hax : alook acc x
            · simp [alook, Ne.symm hxv]
            · rfl
          rw [hax] at hq
          exact hval x q hq
      simp only [sewLoop, if_neg hvr]
      rw [parentF_eq_some_iff.mp hp]
      dsimp only
      rw [hpp]
      dsimp only
      exact ih (done ++ [v]) _ (by rw [hsplit]; simp) hdom2 hval2

/-- Calling `set_edge_weights` succeeds on a constructed tree and its `prefix`
holds the root-path sums. -/
theorem setEdgeWeights_spec {t : TreeData} (ht : TreeOK t) (w : WMap) :
    ∃ res, setEdgeWeights t w = some res ∧
      (∀ x, (alook res x).isSome ↔ (x = t.root ∨ x ∈ t.bfsOrder)) ∧
      (∀ x q, alook res x = some q →
        ∃ d, alook t.depth x = some d ∧ q = chainSum t.parent w d x) := by
  have h := sewLoop_spec ht w t.bfsOrder [] [(t.root, 0)] (by simp) ?_ ?_
  · exact h
  · intro x
    by_cases hx : t.root = x <;> simp [alook, hx]
    exact fun hh => hx hh.symm
  · intro x q hq
    by_cases hx : t.root = x
    · subst hx
      simp [alook] at hq
      subst hq
      exact ⟨0, ht.depth_root, rfl⟩
    · simp [alook, hx] at hq

/-- Claim **C4.** After any call to `set_edge_weights(W')` on the LCA table of
a constructed tree, for every oriented tree edge `(p, c)` the recomputed
prefix sums satisfy `prefix[c] - prefix[p] = W'(p, c)` (weights absent
from `W'` read as 0); consequently `prefix[v]` is the sum of the stored
weights along the root-to-`v` path. -/
theorem c4_prefix_round_trip (fuel : Nat) (root : Node) (pm : PMap)
    (t : TreeData) (w : WMap)
    (hk : (pkeys pm).Nodup) (hr : alook pm root = some none)
    (hinit : treeInit fuel root pm = some (Except.ok t)) :
    ∃ pf, setEdgeWeights t w = some pf ∧
      (∀ c p, parentF pm c = some p →
        ∃ qc qp, alook pf c = some qc ∧ alook pf p = some qp ∧
          qc - qp = (alook w (p, c)).getD 0) ∧
      (∀ v ∈ pkeys pm, ∃ d, alook t.depth v = some d ∧
        alook pf v = some (chainSum pm w d v)) := by
  obtain ⟨hroot, hpar, ht⟩ := treeInit_ok hk hr hinit
  subst hpar
  obtain ⟨pf, hpf, hdom, hval⟩ := setEdgeWeights_spec ht w
  refine ⟨pf, hpf, ?_, ?_⟩
  · intro c p hpc
    have hck : c ∈ pkeys t.parent := mem_pkeys_of_parentF hpc
    obtain ⟨dc0, hdc0⟩ := ht.depthTotal hck
    have hp1 : anc t.parent 1 c = some p := by
      rw [anc_one]
      exact hpc
    have hpk : p ∈ pkeys t.parent := ht.anc_mem_keys hdc0 hp1
    obtain ⟨dp, hdp⟩ := ht.depthTotal hpk
    have hdc : alook t.depth c = some (dp + 1) := ht.depth_child hpc hdp
    obtain ⟨qc, hqc⟩ := Option.isSome_iff_exists.mp
      ((hdom c).mpr (Or.inr (ht.covers c hck)))
    obtain ⟨qp, hqp⟩ := Option.isSome_iff_exists.mp
      ((hdom p).mpr (Or.inr (ht.covers p hpk)))
    obtain ⟨d1, hd1, hv1⟩ := hval c qc hqc
    obtain ⟨d2, hd2, hv2⟩ := hval p qp hqp
    have hd1e : d1 = dp + 1 := by
      rw [hd1] at hdc
      injection hdc
    have hd2e : d2 = dp := by
      rw [hd2] at hdp
      injection hdp
    refine ⟨qc, qp, hqc, hqp, ?_⟩
    rw [hv1, hv2, hd1e, hd2e, chainSum]
    rw [hpc]
    ring
  · intro v hv
    obtain ⟨qv, hqv⟩ := Option.isSome_iff_exists.mp
      ((hdom v).mpr (Or.inr (ht.covers v hv)))
    obtain ⟨d, hd, hvv⟩ := hval v qv hqv
    refine ⟨d, hd, ?_⟩
    rw [hqv, hvv]

/-- The weight map assigning 2 to both edges of the S1 path tree. -/
def triW : WMap := [((0, 1), 2), ((1, 2), 2)]

theorem c4_prefix_round_trip_witness :
    (pkeys triPM).Nodup ∧ alook triPM 0 = some none ∧
    treeInit 10 0 triPM = some (Except.ok triTree) ∧
    (∃ pf, setEdgeWeights triTree triW = some pf ∧
      (∀ c p, parentF triPM c = some p →
        ∃ qc qp, alook pf c = some qc ∧ alook pf p = some qp ∧
          qc - qp = (alook triW (p, c)).getD 0) ∧
      (∀ v ∈ pkeys triPM, ∃ d, alook triTree.depth v = some d ∧
        alook pf v = some (chainSum triPM triW d v))) :=
  ⟨by decide, rfl, rfl,
    c4_prefix_round_trip 10 0 triPM triTree triW (by decide) rfl rfl⟩

/-! ## The congestion computer (`core/congestion.py`) -/

/-- An undirected graph, as the `(u, v, capacity)` triples yielded by
`io.iter_edges`. -/
abbrev Graph := List (Node × Node × ℚ)

/-- Model of `io.edge_key`: the canonical unordered edge key. -/
def ekey (u v : Node) : Node × Node := if u ≤ v then (u, v) else (v, u)

/-- In-place increment of a dict entry (`add[x] += delta`); `none`
models the `KeyError` raised when `x` is not a key. -/
def bump : List (Node × ℚ) → Node → ℚ → Option (List (Node × ℚ))
  | [], _, _ => none
  | (a, q) :: rest, x, delta =>
    if a = x then some ((a, q + delta) :: rest)
    else (bump rest x delta).map (fun m => (a, q) :: m)

/-- The accumulation loop of `compute_tree_capacities`:
`ancestor = lca.lca(u, v); add[u] += w; add[v] += w;
add[ancestor] -= 2 * w`. -/
def addLoop (t : TreeData) : Graph → List (Node × ℚ) → Option (List (Node × ℚ))
  | [], m => some m
  | (u, v, w) :: es, m => do
    let a ← lcaFun t u v
    let m1 ← bump m u w
    let m2 ← bump m1 v w
    let m3 ← bump m2 a (-(2 * w))
    addLoop t es m3

/-- The reverse-BFS propagation loop of `compute_tree_capacities`:
for each non-root `node`, `total[parent] += total[node]` and then
`c_t[(parent, node)] = total[node]`. -/
def propLoop (t : TreeData) :
    List Node → List (Node × ℚ) → List ((Node × Node) × ℚ) →
    Option (List (Node × ℚ) × List ((Node × Node) × ℚ))
  | [], total, ct => some (total, ct)
  | node :: rest, total, ct =>
    match alook t.parent node with
    | none => none
    | some none => propLoop t rest total ct
    | some (some p) => do
      let tv ← alook total node
      let total2 ← bump total p tv
      let tv2 ← alook total2 node
      propLoop t rest total2 (ct ++ [((p, node), tv2)])

/-- Model of `compute_tree_capacities(graph, tree, lca)`: the zero-initialised
`add` dict over `tree.nodes`, the accumulation pass, and the
reverse-BFS subtree-sum pass. -/
def computeTreeCapacities (g : Graph) (t : TreeData) :
    Option (List ((Node × Node) × ℚ)) := do
  let add ← addLoop t g ((pkeys t.parent).map (fun n => (n, (0 : ℚ))))
  let res ← propLoop t t.bfsOrder.reverse add []
  pure res.2

/-- The stack walk of `Tree.subtree_nodes`, fuel-indexed (`stack.pop()`
takes the most recently pushed element, so pushed children are
reversed). -/
def subtreeAux (pm : PMap) : Nat → List Node → List Node → Option (List Node)
  | 0, stack, out => if stack.isEmpty then some out else none
  | _ + 1, [], out => some out
  | fuel + 1, u :: stack, out =>
      subtreeAux pm fuel ((childrenOf pm u).reverse ++ stack) (out ++ [u])

/-- Model of `Tree.subtree_nodes(node)`: the walk visits at most all keys, so
`|keys| + 1` pop steps always suffice on a constructed tree. -/
def subtreeNodes (t : TreeData) (v : Node) : Option (List Node) :=
  subtreeAux t.parent ((pkeys t.parent).length + 1) [v] []

/-- Model of `cuts.cut_capacity(graph, subset)`: total capacity of edges with
exactly one endpoint in `subset`. -/
def cutCapacity (g : Graph) (subset : List Node) : ℚ :=
  (g.map (fun e =>
    if ¬((e.1 ∈ subset) ↔ (e.2.1 ∈ subset)) then e.2.2 else 0)).sum

/-- The contribution of one graph edge to the `add` accumulator at node
`x` (specification vocabulary for the accumulation pass). -/
def edgeContrib (t : TreeData) (e : Node × Node × ℚ) (x : Node) : ℚ :=
  (if e.1 = x then e.2.2 else 0) + (if e.2.1 = x then e.2.2 else 0) +
    (if lcaFun t e.1 e.2.1 = some x then -(2 * e.2.2) else 0)

/-- Total `add` value at `x` after the accumulation pass. -/
def contribSum (t : TreeData) (g : Graph) (x : Node) : ℚ :=
  (g.map (fun e => edgeContrib t e x)).sum

/-- Bounded ancestor test (any chain inside a constructed tree is
shorter than the number of keys). -/
def ancB (pm : PMap) (a y : Node) : Bool :=
  (List.range (pm.length)).any (fun k => anc pm k y == some a)

/-- The descendants of `c` among the keys, as a filtered key list. -/
def descList (pm : PMap) (c : Node) : List Node :=
  (pkeys pm).filter (fun y => ancB pm c y)

/-- Sum of `add` values over the subtree at `c`. -/
def subSum (t : TreeData) (g : Graph) (c : Node) : ℚ :=
  ((descList t.parent c).map (contribSum t g)).sum

/-! ### `bump` lemmas -/

theorem bump_isSome_iff {m : List (Node × ℚ)} {x : Node} {delta : ℚ} :
    (bump m x delta).isSome ↔ x ∈ m.map (fun e => e.1) := by
  induction m with
  | nil => simp [bump]
  | cons e rest ih =>
    obtain ⟨a, q⟩ := e
    by_cases hax : a = x
    · subst hax
      simp [bump]
    · have hxa : ¬x = a := fun hh => hax hh.symm
      simp only [bump, if_neg hax, List.map_cons, List.mem_cons]
      cases hb : bump rest x delta with
      | none =>
        rw [hb] at ih
        simp at ih ⊢
        tauto
      | some m2 =>
        rw [hb] at ih
        simp at ih ⊢
        tauto

theorem bump_keys {m m2 : List (Node × ℚ)} {x : Node} {delta : ℚ}
    (h : bump m x delta = some m2) :
    m2.map (fun e => e.1) = m.map (fun e => e.1) := by
  induction m generalizing m2 with
  | nil => simp [bump] at h
  | cons e rest ih =>
    obtain ⟨a, q⟩ := e
    by_cases hax : a = x
    · subst hax
      simp [bump] at h
      subst h
      simp
    · simp only [bump, if_neg hax] at h
      cases hb : bump rest x delta with
      | none => rw [hb] at h; exact Option.noConfusion h
      | some m3 =>
        rw [hb] at h
        simp at h
        subst h
        simp [ih hb]

/-- Reading after a bump: the bumped key gains `delta`, others are
unchanged. -/
theorem bump_alook {m m2 : List (Node × ℚ)} {x : Node} {delta : ℚ}
    (h : bump m x delta = some m2) (y : Node) :
    alook m2 y = (alook m y).map
      (fun q => q + if x = y then delta else 0) := by
  induction m generalizing m2 with
  | nil => simp [bump] at h
  | cons e rest ih =>
    obtain ⟨a, q⟩ := e
    by_cases hax : a = x
    · subst hax
      have hb : bump ((a, q) :: rest) a delta =
          some ((a, q + delta) :: rest) := by
        simp [bump]
      rw [hb] at h
      have hm : m2 = (a, q + delta) :: rest := (Option.some.inj h).symm
      subst hm
      by_cases hay : a = y
      · subst hay
        simp [alook]
      · simp only [alook, if_neg hay]
        cases alook rest y <;> simp [hay]
    · simp only [bump, if_neg hax] at h
      cases hb : bump rest x delta with
      | none => rw [hb] at h; exact Option.noConfusion h
      | some m3 =>
        rw [hb] at h
        simp at h
        subst h
        by_cases hay : a = y
        · subst hay
          have hxa : ¬x = a := fun hh => hax hh.symm
          simp [alook, hxa]
        · simp [alook, hay, ih hb]

/-! ### The subtree walk -/

theorem TreeOK.not_parent_anc {t : TreeData} (ht : TreeOK t) {c u : Node}
    (hc : c ∈ pkeys t.parent) (hp : parentF t.parent c = some u)
    (ha : isAnc t.parent c u) : False := by
  obtain ⟨dc, hdc⟩ := ht.depthTotal hc
  have hu1 : anc t.parent 1 c = some u := by
    rw [anc_one]
    exact hp
  have huk : u ∈ pkeys t.parent := ht.anc_mem_keys hdc hu1
  obtain ⟨du, hdu⟩ := ht.depthTotal huk
  have hchild := ht.depth_child hp hdu
  have hdceq : dc = du + 1 := by
    rw [hdc] at hchild
    injection hchild
  have hle := ht.depth_le_of_isAnc ha hdu hdc
  omega

/-- The invariant of the `subtree_nodes` stack walk rooted at `c`. -/
structure SInv (t : TreeData) (c : Node) (out stack : List Node) : Prop where
  nodupOS : (out ++ stack).Nodup
  memKeys : ∀ y ∈ out ++ stack, y ∈ pkeys t.parent
  memDesc : ∀ y ∈ out ++ stack, isAnc t.parent c y
  cMem : c ∈ out ++ stack
  parentOut : ∀ y ∈ out, y = c ∨ ∃ p, parentF t.parent y = some p ∧ p ∈ out
  parentStack : ∀ y ∈ stack, y = c ∨ ∃ p, parentF t.parent y = some p ∧ p ∈ out
  closed : ∀ u ∈ out, ∀ ch ∈ childrenOf t.parent u, ch ∈ out ++ stack

theorem sInv_init {t : TreeData} {c : Node} (hc : c ∈ pkeys t.parent) :
    SInv t c [] [c] where
  nodupOS := by simp
  memKeys := by
    intro y hy
    simp at hy
    subst hy
    exact hc
  memDesc := by
    intro y hy
    simp at hy
    subst hy
    exact isAnc_refl _ _
  cMem := by simp
  parentOut := by intro y hy; simp at hy
  parentStack := by
    intro y hy
    simp at hy
    exact Or.inl hy
  closed := by intro u hu; simp at hu

theorem sInv_step {t : TreeData} (ht : TreeOK t) {c u : Node}
    {out stack : List Node} (inv : SInv t c out (u :: stack)) :
    SInv t c (out ++ [u]) ((childrenOf t.parent u).reverse ++ stack) := by
  set cs := childrenOf t.parent u with hcs
  have hune : u ∉ out := by
    have hnd := inv.nodupOS
    rw [List.nodup_append] at hnd
    intro hu
    exact hnd.2.2 hu (by simp)
  have hcsnot : ∀ ch ∈ cs, ch ∉ out ++ u :: stack := by
    intro ch hch hmem
    have hpch : parentF t.parent ch = some u :=
      parentF_of_mem_childrenOf ht.keysNodup hch
    have hcases : ch = c ∨ ∃ p, parentF t.parent ch = some p ∧ p ∈ out := by
      rcases List.mem_append.mp hmem with h | h
      · exact inv.parentOut ch h
      · exact inv.parentStack ch h
    rcases hcases with rfl | ⟨p, hp, hpo⟩
    · exact ht.not_parent_anc (inv.memKeys ch hmem) hpch
        (inv.memDesc u (by simp))
    · rw [hpch] at hp
      obtain rfl : p = u := by injection hp.symm
      exact hune hpo
  have hperm : List.Perm ((out ++ [u]) ++ (cs.reverse ++ stack))
      ((out ++ u :: stack) ++ cs) := by
    have e1 : (out ++ [u]) ++ (cs.reverse ++ stack) =
        out ++ u :: (cs.reverse ++ stack) := by simp
    have e2 : (out ++ u :: stack) ++ cs = out ++ u :: (stack ++ cs) := by
      simp
    rw [e1, e2]
    refine List.Perm.append_left out (List.Perm.cons u ?_)
    exact (List.Perm.append_right stack cs.reverse_perm).trans
      List.perm_append_comm
  have hsetEq : ∀ v, v ∈ (out ++ [u]) ++ (cs.reverse ++ stack) ↔
      v ∈ (out ++ u :: stack) ++ cs := fun v => hperm.mem_iff
  have hnodup : ((out ++ [u]) ++ (cs.reverse ++ stack)).Nodup := by
    rw [hperm.nodup_iff, List.nodup_append]
    exact ⟨inv.nodupOS, childrenOf_nodup ht.keysNodup u,
      fun a ha hb => hcsnot a hb ha⟩
  refine ⟨hnodup, ?_, ?_, ?_, ?_, ?_, ?_⟩
  · intro y hy
    rw [hsetEq] at hy
    rcases List.mem_append.mp hy with h | h
    · exact inv.memKeys y h
    · exact mem_pkeys_of_parentF (parentF_of_mem_childrenOf ht.keysNodup h)
  · intro y hy
    rw [hsetEq] at hy
    rcases List.mem_append.mp hy with h | h
    · exact inv.memDesc y h
    · have hpy : parentF t.parent y = some u :=
        parentF_of_mem_childrenOf ht.keysNodup h
      exact isAnc_trans (inv.memDesc u (by simp))
        ⟨1, by rw [anc_one]; exact hpy⟩
  · rw [hsetEq]
    exact List.mem_append.mpr (Or.inl inv.cMem)
  · intro y hy
    rcases List.mem_append.mp hy with h | h
    · rcases inv.parentOut y h with h1 | ⟨p, hp, hpo⟩
      · exact Or.inl h1
      · exact Or.inr ⟨p, hp, by simp [hpo]⟩
    · obtain rfl : y = u := by simpa using h
      rcases inv.parentStack y (by simp) with h1 | ⟨p, hp, hpo⟩
      · exact Or.inl h1
      · exact Or.inr ⟨p, hp, by simp [hpo]⟩
  · intro y hy
    rcases List.mem_append.mp hy with h | h
    · have hpy : parentF t.parent y = some u :=
        parentF_of_mem_childrenOf ht.keysNodup (by simpa using h)
      exact Or.inr ⟨u, hpy, by simp⟩
    · rcases inv.parentStack y (by simp [h]) with h1 | ⟨p, hp, hpo⟩
      · exact Or.inl h1
      · exact Or.inr ⟨p, hp, by simp [hpo]⟩
  · intro x hx ch hch
    rw [hsetEq]
    rcases List.mem_append.mp hx with h | h
    · exact List.mem_append.mpr (Or.inl (inv.closed x h ch hch))
    · obtain rfl : x = u := by simpa using h
      exact List.mem_append.mpr (Or.inr hch)

theorem subtreeAux_run {t : TreeData} (ht : TreeOK t) {c : Node} :
    ∀ fuel out stack, SInv t c out stack →
      (pkeys t.parent).length + 1 ≤ fuel + out.length →
      ∃ res, subtreeAux t.parent fuel stack out = some res ∧
        SInv t c res [] := by
  intro fuel
  induction fuel with
  | zero =>
    intro out stack inv hle
    exfalso
    have h1 : (out ++ stack).length ≤ (pkeys t.parent).length :=
      nodup_subset_length inv.nodupOS inv.memKeys
    simp at h1
    omega
  | succ fuel ih =>
    intro out stack inv hle
    cases stack with
    | nil => exact ⟨out, rfl, inv⟩
    | cons u st =>
      have := ih (out ++ [u]) ((childrenOf t.parent u).reverse ++ st)
        (sInv_step ht inv) (by simp; omega)
      simpa [subtreeAux] using this

theorem sInv_coverage {t : TreeData} {c : Node} {out : List Node}
    (hk : (pkeys t.parent).Nodup) (inv : SInv t c out []) :
    ∀ k y, anc t.parent k y = some c → y ∈ out := by
  intro k
  induction k with
  | zero =>
    intro y h
    simp [anc] at h
    subst h
    simpa using inv.cMem
  | succ k ih =>
    intro y h
    simp only [anc] at h
    cases hp : parentF t.parent y with
    | none => rw [hp] at h; exact Option.noConfusion h
    | some p =>
      rw [hp] at h
      simp at h
      have hpo : p ∈ out := ih p h
      have := inv.closed p hpo y (mem_childrenOf_of_parentF hp)
      simpa using this

/-- Running `Tree.subtree_nodes(c)` succeeds on a constructed tree and returns
exactly the keys whose parent chain passes through `c`. -/
theorem subtreeNodes_spec {t : TreeData} (ht : TreeOK t) {c : Node}
    (hc : c ∈ pkeys t.parent) :
    ∃ stn, subtreeNodes t c = some stn ∧ stn.Nodup ∧
      ∀ y, y ∈ stn ↔ (y ∈ pkeys t.parent ∧ isAnc t.parent c y) := by
  obtain ⟨res, hrun, hinv⟩ := subtreeAux_run ht
    ((pkeys t.parent).length + 1) [] [c] (sInv_init hc) (by simp)
  refine ⟨res, hrun, by simpa using hinv.nodupOS, ?_⟩
  intro y
  constructor
  · intro hy
    exact ⟨hinv.memKeys y (by simpa using hy),
      hinv.memDesc y (by simpa using hy)⟩
  · rintro ⟨hyk, k, hk⟩
    exact sInv_coverage ht.keysNodup hinv k y hk

/-! ### The accumulation pass -/

theorem addLoop_spec {t : TreeData} (ht : TreeOK t) :
    ∀ (g : Graph) (m : List (Node × ℚ)),
      (∀ e ∈ g, e.1 ∈ pkeys t.parent ∧ e.2.1 ∈ pkeys t.parent) →
      m.map (fun e => e.1) = pkeys t.parent →
      ∃ m2, addLoop t g m = some m2 ∧
        m2.map (fun e => e.1) = pkeys t.parent ∧
        ∀ x, alook m2 x = (alook m x).map
          (fun q => q + contribSum t g x) := by
  intro g
  induction g with
  | nil =>
    intro m _ hm
    refine ⟨m, rfl, hm, ?_⟩
    intro x
    cases alook m x <;> simp [contribSum]
  | cons e es ih =>
    intro m hg hm
    obtain ⟨u, v, w⟩ := e
    obtain ⟨hu, hv⟩ := hg (u, v, w) (by simp)
    obtain ⟨du, hdu⟩ := ht.depthTotal hu
    obtain ⟨dv, hdv⟩ := ht.depthTotal hv
    obtain ⟨a, da, ha, hda, hdale, hau, hav, hdeep⟩ := lcaFun_spec ht hdu hdv
    obtain ⟨ka, hka⟩ := hau
    have hak : a ∈ pkeys t.parent := ht.anc_mem_keys hdu hka
    have hbs1 : (bump m u w).isSome :=
      bump_isSome_iff.mpr (by rw [hm]; exact hu)
    obtain ⟨m1, hm1⟩ := Option.isSome_iff_exists.mp hbs1
    have hm1k : m1.map (fun e => e.1) = pkeys t.parent := by
      rw [bump_keys hm1, hm]
    have hbs2 : (bump m1 v w).isSome :=
      bump_isSome_iff.mpr (by rw [hm1k]; exact hv)
    obtain ⟨mb, hmb⟩ := Option.isSome_iff_exists.mp hbs2
    have hmbk : mb.map (fun e => e.1) = pkeys t.parent := by
      rw [bump_keys hmb, hm1k]
    have hbs3 : (bump mb a (-(2 * w))).isSome :=
      bump_isSome_iff.mpr (by rw [hmbk]; exact hak)
    obtain ⟨m3, hm3⟩ := Option.isSome_iff_exists.mp hbs3
    have hm3k : m3.map (fun e => e.1) = pkeys t.parent := by
      rw [bump_keys hm3, hmbk]
    have hstep : ∀ x, alook m3 x = (alook m x).map
        (fun q => q + edgeContrib t (u, v, w) x) := by
      intro x
      rw [bump_alook hm3 x, bump_alook hmb x, bump_alook hm1 x]
      cases alook m x with
      | none => simp
      | some q =>
        simp only [Option.map_some']
        congr 1
        simp only [edgeContrib, ha, Option.some.injEq]
        ring
    obtain ⟨m2, hrun, hm2k, hval⟩ := ih m3 (fun e he => hg e (by simp [he]))
      hm3k
    have heq : addLoop t ((u, v, w) :: es) m =
        (lcaFun t u v).bind (fun a => (bump m u w).bind (fun m1 =>
          (bump m1 v w).bind (fun mm => (bump mm a (-(2 * w))).bind
            (fun m3 => addLoop t es m3)))) := rfl
    refine ⟨m2, ?_, hm2k, ?_⟩
    · rw [heq, ha]
      simp only [Option.some_bind]
      rw [hm1]
      simp only [Option.some_bind]
      rw [hmb]
      simp only [Option.some_bind]
      rw [hm3]
      simp only [Option.some_bind]
      exact hrun
    · intro x
      rw [hval x, hstep x]
      cases alook m x with
      | none => simp
      | some q =>
        simp only [Option.map_some']
        congr 1
        simp [contribSum]
        ring

/-! ### Subtree sums and the cut identity -/

theorem mem_descList_iff {t : TreeData} (ht : TreeOK t) {c y : Node} :
    y ∈ descList t.parent c ↔
      (y ∈ pkeys t.parent ∧ isAnc t.parent c y) := by
  unfold descList ancB
  rw [List.mem_filter]
  constructor
  · rintro ⟨hy, hb⟩
    refine ⟨hy, ?_⟩
    rw [List.any_eq_true] at hb
    obtain ⟨k, _, hk⟩ := hb
    exact ⟨k, by simpa using hk⟩
  · rintro ⟨hy, k, hk⟩
    refine ⟨hy, ?_⟩
    rw [List.any_eq_true]
    obtain ⟨d, hd⟩ := ht.depthTotal hy
    have hkd := (ht.depth_of_anc hd hk).1
    have hdlt := ht.depth_lt hd
    have hlen : (pkeys t.parent).length = t.parent.length := by
      unfold pkeys
      simp
    refine ⟨k, List.mem_range.mpr (by omega), by simpa using hk⟩

theorem descList_nodup {t : TreeData} (ht : TreeOK t) (c : Node) :
    (descList t.parent c).Nodup :=
  ht.keysNodup.filter _

theorem descList_child_disjoint {t : TreeData} (ht : TreeOK t)
    {p c1 c2 : Node} (h1 : parentF t.parent c1 = some p)
    (h2 : parentF t.parent c2 = some p) (hne : c1 ≠ c2) :
    ∀ y, y ∈ descList t.parent c1 → y ∈ descList t.parent c2 → False := by
  intro y hy1 hy2
  obtain ⟨hyk, i, hi⟩ := (mem_descList_iff ht).mp hy1
  obtain ⟨_, j, hj⟩ := (mem_descList_iff ht).mp hy2
  obtain ⟨dy, hdy⟩ := ht.depthTotal hyk
  obtain ⟨hid, hdi⟩ := ht.depth_of_anc hdy hi
  obtain ⟨hjd, hdj⟩ := ht.depth_of_anc hdy hj
  have hpk : p ∈ pkeys t.parent := by
    have h1k : c1 ∈ pkeys t.parent := mem_pkeys_of_parentF h1
    obtain ⟨d1, hd1⟩ := ht.depthTotal h1k
    exact ht.anc_mem_keys hd1 (by rw [anc_one]; exact h1)
  obtain ⟨dp, hdp⟩ := ht.depthTotal hpk
  have hdc1 := ht.depth_child h1 hdp
  have hdc2 := ht.depth_child h2 hdp
  have hie : dy - i = dp + 1 := by
    rw [hdi] at hdc1
    injection hdc1
  have hje : dy - j = dp + 1 := by
    rw [hdj] at hdc2
    injection hdc2
  have hij : i = j := by omega
  subst hij
  rw [hi] at hj
  exact hne (Option.some.inj hj)

theorem descList_decomp {t : TreeData} (ht : TreeOK t) {c : Node}
    (hc : c ∈ pkeys t.parent) :
    List.Perm (descList t.parent c)
      (c :: ((childrenOf t.parent c).map (descList t.parent)).flatten) := by
  have hcnotin : c ∉ ((childrenOf t.parent c).map (descList t.parent)).flatten := by
    intro hmem
    rw [List.mem_flatten] at hmem
    obtain ⟨l, hl, hcl⟩ := hmem
    obtain ⟨ch, hch, rfl⟩ := List.mem_map.mp hl
    have hpch : parentF t.parent ch = some c :=
      parentF_of_mem_childrenOf ht.keysNodup hch
    obtain ⟨_, hanc⟩ := (mem_descList_iff ht).mp hcl
    exact ht.not_parent_anc (mem_pkeys_of_parentF hpch) hpch hanc
  have hjoinnodup :
      (((childrenOf t.parent c).map (descList t.parent)).flatten).Nodup := by
    rw [List.nodup_flatten]
    constructor
    · intro l hl
      obtain ⟨ch, _, rfl⟩ := List.mem_map.mp hl
      exact descList_nodup ht ch
    · have hchn : (childrenOf t.parent c).Nodup :=
        childrenOf_nodup ht.keysNodup c
      have hpw : List.Pairwise
          (fun c1 c2 => (descList t.parent c1).Disjoint
            (descList t.parent c2)) (childrenOf t.parent c) := by
        refine hchn.imp_of_mem ?_
        intro c1 c2 h1 h2 hne
        intro y hy1 hy2
        exact descList_child_disjoint ht
          (parentF_of_mem_childrenOf ht.keysNodup h1)
          (parentF_of_mem_childrenOf ht.keysNodup h2) hne y hy1 hy2
      exact List.Pairwise.map _ (fun a b h => h) hpw
  have hrhsnodup :
      (c :: ((childrenOf t.parent c).map (descList t.parent)).flatten).Nodup :=
    List.nodup_cons.mpr ⟨hcnotin, hjoinnodup⟩
  rw [List.perm_ext_iff_of_nodup (descList_nodup ht c) hrhsnodup]
  intro y
  rw [mem_descList_iff ht, List.mem_cons, List.mem_flatten]
  constructor
  · rintro ⟨hyk, k, hk⟩
    cases k with
    | zero =>
      left
      simp [anc] at hk
      exact hk
    | succ e =>
      right
      rw [anc_succ_right] at hk
      cases hche : anc t.parent e y with
      | none =>
        rw [hche] at hk
        exact Option.noConfusion hk
      | some ch =>
        rw [hche] at hk
        simp at hk
        refine ⟨descList t.parent ch, List.mem_map.mpr
          ⟨ch, mem_childrenOf_of_parentF hk, rfl⟩, ?_⟩
        rw [mem_descList_iff ht]
        exact ⟨hyk, e, hche⟩
  · rintro (rfl | ⟨l, hl, hyl⟩)
    · exact ⟨hc, isAnc_refl _ _⟩
    · obtain ⟨ch, hch, rfl⟩ := List.mem_map.mp hl
      obtain ⟨hyk, hanc⟩ := (mem_descList_iff ht).mp hyl
      have hpch : parentF t.parent ch = some c :=
        parentF_of_mem_childrenOf ht.keysNodup hch
      exact ⟨hyk, isAnc_trans ⟨1, by rw [anc_one]; exact hpch⟩ hanc⟩

theorem map_sum_add {α : Type} (D : List α) (f g : α → ℚ) :
    (D.map (fun y => f y + g y)).sum = (D.map f).sum + (D.map g).sum := by
  induction D with
  | nil => simp
  | cons d rest ih =>
    simp [ih]
    ring

theorem map_sum_zero {α : Type} (D : List α) :
    (D.map (fun _ => (0 : ℚ))).sum = 0 := by
  induction D <;> simp [*]

theorem sum_comm_list {α β : Type} (l1 : List α) (l2 : List β)
    (f : α → β → ℚ) :
    (l1.map (fun a => (l2.map (f a)).sum)).sum =
      (l2.map (fun b => (l1.map (fun a => f a b)).sum)).sum := by
  induction l1 with
  | nil => simp [map_sum_zero]
  | cons a l1 ih =>
    simp only [List.map_cons, List.sum_cons, ih]
    rw [← map_sum_add]

theorem point_mass_sum {D : List Node} (hD : D.Nodup) (z : Node) (q : ℚ) :
    (D.map (fun y => if z = y then q else 0)).sum =
      if z ∈ D then q else 0 := by
  induction D with
  | nil => simp
  | cons d rest ih =>
    rw [List.nodup_cons] at hD
    by_cases hz : z = d
    · subst hz
      have hnot : z ∉ rest := hD.1
      simp [ih hD.2, hnot]
    · simp [hz, ih hD.2]

/-- The decomposition of the subtree sum at `c` along children. -/
theorem subSum_decomp {t : TreeData} (ht : TreeOK t) (g : Graph) {c : Node}
    (hc : c ∈ pkeys t.parent) :
    subSum t g c = contribSum t g c +
      ((childrenOf t.parent c).map (subSum t g)).sum := by
  unfold subSum
  rw [((descList_decomp ht hc).map (contribSum t g)).sum_eq]
  simp only [List.map_cons, List.sum_cons]
  congr 1
  rw [List.map_flatten, List.sum_flatten]
  congr 1
  simp [Function.comp]

/-- One edge's total contribution over the subtree at `c` is its capacity
when it crosses the induced cut, and zero otherwise. -/
theorem edge_cut_sum {t : TreeData} (ht : TreeOK t) {c : Node}
    (hc : c ∈ pkeys t.parent) {u v : Node} {w : ℚ}
    (hu : u ∈ pkeys t.parent) (hv : v ∈ pkeys t.parent) :
    ((descList t.parent c).map (edgeContrib t (u, v, w))).sum =
      if ¬((u ∈ descList t.parent c) ↔ (v ∈ descList t.parent c))
      then w else 0 := by
  obtain ⟨du, hdu⟩ := ht.depthTotal hu
  obtain ⟨dv, hdv⟩ := ht.depthTotal hv
  obtain ⟨a, da, ha, hda, _, hau, hav, hdeep⟩ := lcaFun_spec ht hdu hdv
  obtain ⟨ka, hka⟩ := id hau
  have hak : a ∈ pkeys t.parent := ht.anc_mem_keys hdu hka
  have hD := descList_nodup ht c
  have hsplit : ((descList t.parent c).map (edgeContrib t (u, v, w))).sum =
      (if u ∈ descList t.parent c then w else 0) +
      (if v ∈ descList t.parent c then w else 0) +
      (if a ∈ descList t.parent c then -(2 * w) else 0) := by
    unfold edgeContrib
    simp only [ha, Option.some.injEq]
    rw [map_sum_add, map_sum_add]
    rw [point_mass_sum hD u w, point_mass_sum hD v w,
      point_mass_sum hD a (-(2 * w))]
  rw [hsplit]
  by_cases hum : u ∈ descList t.parent c <;>
    by_cases hvm : v ∈ descList t.parent c
  · have ham : a ∈ descList t.parent c := by
      rw [mem_descList_iff ht]
      refine ⟨hak, hdeep c ?_ ?_⟩
      · exact ((mem_descList_iff ht).mp hum).2
      · exact ((mem_descList_iff ht).mp hvm).2
    simp [hum, hvm, ham]
    ring
  · have ham : a ∉ descList t.parent c := by
      intro hmem
      apply hvm
      rw [mem_descList_iff ht]
      exact ⟨hv, isAnc_trans ((mem_descList_iff ht).mp hmem).2 hav⟩
    simp [hum, hvm, ham]
  · have ham : a ∉ descList t.parent c := by
      intro hmem
      apply hum
      rw [mem_descList_iff ht]
      exact ⟨hu, isAnc_trans ((mem_descList_iff ht).mp hmem).2 hau⟩
    simp [hum, hvm, ham]
  · have ham : a ∉ descList t.parent c := by
      intro hmem
      apply hum
      rw [mem_descList_iff ht]
      exact ⟨hu, isAnc_trans ((mem_descList_iff ht).mp hmem).2 hau⟩
    simp [hum, hvm, ham]

/-- The subtree sum at `c` is exactly the capacity of the cut induced by
the subtree at `c`. -/
theorem subSum_eq_cut {t : TreeData} (ht : TreeOK t) {g : Graph} {c : Node}
    (hc : c ∈ pkeys t.parent)
    (hg : ∀ e ∈ g, e.1 ∈ pkeys t.parent ∧ e.2.1 ∈ pkeys t.parent) :
    subSum t g c = cutCapacity g (descList t.parent c) := by
  unfold subSum contribSum cutCapacity
  rw [sum_comm_list]
  congr 1
  apply List.map_congr_left
  intro e he
  obtain ⟨u, v, w⟩ := e
  exact edge_cut_sum ht hc (hg (u, v, w) he).1 (hg (u, v, w) he).2

/-! ### The propagation pass -/

theorem nodup_split_unique {α : Type} {l s1 t1 s2 t2 : List α} {x : α}
    (hn : l.Nodup) (h1 : l = s1 ++ x :: t1) (h2 : l = s2 ++ x :: t2) :
    s1 = s2 ∧ t1 = t2 := by
  subst h1
  induction s1 generalizing s2 with
  | nil =>
    rw [List.nil_append] at hn h2
    cases s2 with
    | nil =>
      simp at h2
      exact ⟨rfl, h2⟩
    | cons b s2 =>
      simp at h2
      obtain ⟨rfl, h2⟩ := h2
      rw [List.nodup_cons] at hn
      exact absurd (by rw [h2]; simp : x ∈ t1) hn.1
  | cons a s1 ih =>
    rw [List.cons_append, List.nodup_cons] at hn
    cases s2 with
    | nil =>
      rw [List.nil_append] at h2
      rw [List.cons_append] at h2
      simp at h2
      obtain ⟨rfl, h2⟩ := h2
      exact absurd (by simp : a ∈ s1 ++ a :: t1) hn.1
    | cons b s2 =>
      rw [List.cons_append, List.cons_append] at h2
      simp at h2
      obtain ⟨rfl, h2⟩ := h2
      obtain ⟨hs, ht⟩ := ih hn.2 h2
      exact ⟨by rw [hs], ht⟩

/-- In a duplicate-free list, an element whose own split has `v` in its
prefix lies after `v` in the list. -/
theorem mem_post_of_split {α : Type} {l pre post s tl : List α} {v x : α}
    (hn : l.Nodup) (h1 : l = pre ++ v :: post) (h2 : l = s ++ x :: tl)
    (hvs : v ∈ s) : x ∈ post := by
  have hvnotpre : v ∉ pre := by
    intro hv
    rw [h1, List.nodup_append] at hn
    exact hn.2.2 hv (by simp)
  by_cases hxv : x = v
  · subst hxv
    obtain ⟨hs, _⟩ := nodup_split_unique hn h1 h2
    exact absurd (hs ▸ hvs) hvnotpre
  · have hx : x ∈ l := by rw [h2]; simp
    rw [h1] at hx
    rcases List.mem_append.mp hx with hxpre | hxvpost
    · exfalso
      obtain ⟨p1, p2, hp⟩ := List.append_of_mem hxpre
      have h3 : l = p1 ++ x :: (p2 ++ v :: post) := by
        rw [h1, hp]
        simp
      obtain ⟨hs, _⟩ := nodup_split_unique hn h3 h2
      have hv1 : v ∈ p1 := by
        rw [hs]
        exact hvs
      refine hvnotpre ?_
      rw [hp]
      exact List.mem_append.mpr (Or.inl hv1)
    · rcases List.mem_cons.mp hxvpost with h | h
      · exact absurd h hxv
      · exact h

theorem filter_congr_mem {l : List Node} {p q : Node → Bool}
    (h : ∀ a ∈ l, p a = q a) : l.filter p = l.filter q :=
  List.filter_congr h

theorem filter_snoc_sum {l P : List Node} {node : Node} (hl : l.Nodup)
    (hmem : node ∈ l) (hnot : node ∉ P) (f : Node → ℚ) :
    ((l.filter (fun ch => decide (ch ∈ P ++ [node]))).map f).sum =
      ((l.filter (fun ch => decide (ch ∈ P))).map f).sum + f node := by
  induction l with
  | nil => simp at hmem
  | cons a rest ih =>
    rw [List.nodup_cons] at hl
    by_cases han : a = node
    · subst han
      have hrest : ∀ ch ∈ rest, (decide (ch ∈ P ++ [a]) : Bool) =
          decide (ch ∈ P) := by
        intro ch hch
        have hcha : ch ≠ a := fun hh => hl.1 (hh ▸ hch)
        simp [hcha]
      rw [List.filter_cons, List.filter_cons]
      rw [if_pos (by simp : (decide (a ∈ P ++ [a]) : Bool) = true)]
      rw [if_neg (by simpa using hnot : ¬(decide (a ∈ P) : Bool) = true)]
      rw [filter_congr_mem hrest]
      simp only [List.map_cons, List.sum_cons]
      ring
    · have hmem2 : node ∈ rest := by
        rcases List.mem_cons.mp hmem with h | h
        · exact absurd h.symm han
        · exact h
      rw [List.filter_cons, List.filter_cons]
      have hcond : (decide (a ∈ P ++ [node]) : Bool) = decide (a ∈ P) := by
        simp [han]
      rw [hcond]
      by_cases hap : a ∈ P
      · rw [if_pos (decide_eq_true hap), if_pos (decide_eq_true hap)]
        simp only [List.map_cons, List.sum_cons]
        rw [ih hl.2 hmem2]
        ring
      · rw [if_neg (by simpa using hap), if_neg (by simpa using hap)]
        exact ih hl.2 hmem2

theorem alook_const_map {l : List Node} {x : Node} {c : ℚ} :
    alook (l.map (fun n => (n, c))) x = if x ∈ l then some c else none := by
  induction l with
  | nil => simp [alook]
  | cons a rest ih =>
    by_cases hax : a = x
    · subst hax
      simp [alook]
    · simp [alook, hax, ih, Ne.symm hax]

theorem propLoop_spec {t : TreeData} (ht : TreeOK t) {g : Graph} :
    ∀ (rem P : List Node) (total : List (Node × ℚ))
      (ct : List ((Node × Node) × ℚ)),
      t.bfsOrder = rem.reverse ++ P.reverse →
      total.map (fun e => e.1) = pkeys t.parent →
      (∀ x ∈ pkeys t.parent, alook total x = some (contribSum t g x +
        (((childrenOf t.parent x).filter
          (fun ch => decide (ch ∈ P))).map (subSum t g)).sum)) →
      (∀ c2 p2, parentF t.parent c2 = some p2 → c2 ∈ P →
        alook ct (p2, c2) = some (subSum t g c2)) →
      (∀ k q, (k, q) ∈ ct → k.2 ∈ P) →
      ∃ res, propLoop t rem total ct = some res ∧
        ∀ c2 p2, parentF t.parent c2 = some p2 →
          alook res.2 (p2, c2) = some (subSum t g c2) := by
  intro rem
  induction rem with
  | nil =>
    intro P total ct hsplit hkeys htotal hct hkct
    refine ⟨(total, ct), rfl, ?_⟩
    intro c2 p2 hp
    apply hct c2 p2 hp
    have h1 : c2 ∈ t.bfsOrder := ht.covers c2 (mem_pkeys_of_parentF hp)
    rw [hsplit] at h1
    simpa using h1
  | cons node rem ih =>
    intro P total ct hsplit hkeys htotal hct hkct
    have hsplit2 : t.bfsOrder = rem.reverse ++ (node :: P.reverse) := by
      rw [hsplit]
      simp
    have hnodemem : node ∈ t.bfsOrder := by rw [hsplit2]; simp
    have hnodek : node ∈ pkeys t.parent := ht.orderSubKeys node hnodemem
    have hnodeP : node ∉ P := by
      have hnd := ht.orderNodup
      rw [hsplit2, List.nodup_append] at hnd
      have := List.nodup_cons.mp hnd.2.1
      intro hmem
      exact this.1 (List.mem_reverse.mpr hmem)
    have hsplitP2 : t.bfsOrder = rem.reverse ++ (P ++ [node]).reverse := by
      rw [hsplit2]
      simp
    have halp : (alook t.parent node).isSome := alook_isSome_iff.mpr hnodek
    obtain ⟨o, ho⟩ := Option.isSome_iff_exists.mp halp
    cases o with
    | none =>
      have hpfn : parentF t.parent node = none := by simp [parentF, ho]
      have htotal2 : ∀ x ∈ pkeys t.parent,
          alook total x = some (contribSum t g x +
          (((childrenOf t.parent x).filter
            (fun ch => decide (ch ∈ P ++ [node]))).map (subSum t g)).sum) := by
        intro x hx
        rw [htotal x hx]
        have hfc : (childrenOf t.parent x).filter
            (fun ch => decide (ch ∈ P ++ [node])) =
            (childrenOf t.parent x).filter (fun ch => decide (ch ∈ P)) := by
          apply filter_congr_mem
          intro ch hch
          have hne : ch ≠ node := by
            intro hh
            subst hh
            rw [parentF_of_mem_childrenOf ht.keysNodup hch] at hpfn
            exact Option.noConfusion hpfn
          simp [hne]
        rw [hfc]
      have hct2 : ∀ c2 p2, parentF t.parent c2 = some p2 →
          c2 ∈ P ++ [node] → alook ct (p2, c2) = some (subSum t g c2) := by
        intro c2 p2 hp hmem
        rcases List.mem_append.mp hmem with h | h
        · exact hct c2 p2 hp h
        · exfalso
          obtain rfl : c2 = node := by simpa using h
          rw [hp] at hpfn
          exact Option.noConfusion hpfn
      have hkct2 : ∀ k q, (k, q) ∈ ct → k.2 ∈ P ++ [node] := by
        intro k q h
        exact List.mem_append.mpr (Or.inl (hkct k q h))
      have heq : propLoop t (node :: rem) total ct =
          propLoop t rem total ct := by
        simp only [propLoop]
        rw [ho]
      rw [heq]
      exact ih (P ++ [node]) total ct hsplitP2 hkeys htotal2 hct2 hkct2
    | some p =>
      have hpf : parentF t.parent node = some p := parentF_eq_some_iff.mpr ho
      have hchP : ∀ ch ∈ childrenOf t.parent node, ch ∈ P := by
        intro ch hch
        have hpch : parentF t.parent ch = some node :=
          parentF_of_mem_childrenOf ht.keysNodup hch
        have hchk : ch ∈ pkeys t.parent := mem_pkeys_of_parentF hpch
        have hchmem : ch ∈ t.bfsOrder := ht.covers ch hchk
        obtain ⟨s, tl, hstl⟩ := List.append_of_mem hchmem
        rcases ht.inv.parentOrder s ch tl hstl with hr | ⟨p2, hp2, hp2s⟩
        · exfalso
          rw [hr] at hpch
          rw [ht.parentRootNone] at hpch
          exact Option.noConfusion hpch
        · rw [hpch] at hp2
          obtain rfl : p2 = node := by injection hp2.symm
          have := mem_post_of_split ht.orderNodup hsplit2 hstl hp2s
          exact List.mem_reverse.mp this
      have htn : alook total node = some (subSum t g node) := by
        rw [htotal node hnodek]
        have hfilter : (childrenOf t.parent node).filter
            (fun ch => decide (ch ∈ P)) = childrenOf t.parent node := by
          apply List.filter_eq_self.mpr
          intro ch hch
          exact decide_eq_true (hchP ch hch)
        rw [hfilter]
        rw [← subSum_decomp ht g hnodek]
      have hpk : p ∈ pkeys t.parent := by
        obtain ⟨dn, hdn⟩ := ht.depthTotal hnodek
        exact ht.anc_mem_keys hdn (by rw [anc_one]; exact hpf)
      have hbp : (bump total p (subSum t g node)).isSome :=
        bump_isSome_iff.mpr (by rw [hkeys]; exact hpk)
      obtain ⟨total2, htotal2run⟩ := Option.isSome_iff_exists.mp hbp
      have hpnode : p ≠ node := by
        intro hh
        subst hh
        exact ht.not_parent_anc hnodek hpf (isAnc_refl _ _)
      have htv2 : alook total2 node = some (subSum t g node) := by
        rw [bump_alook htotal2run node, htn]
        simp only [Option.map_some', if_neg hpnode, add_zero]
      have hctnone : alook ct (p, node) = none := by
        cases hcn : alook ct (p, node) with
        | none => rfl
        | some q =>
          exfalso
          exact hnodeP (hkct (p, node) q (alook_mem hcn))
      have heq : propLoop t (node :: rem) total ct =
          propLoop t rem total2 (ct ++ [((p, node), subSum t g node)]) := by
        have heq0 : propLoop t (node :: rem) total ct =
            (alook total node).bind (fun tv => (bump total p tv).bind
              (fun t2 => (alook t2 node).bind (fun tv2 =>
                propLoop t rem t2 (ct ++ [((p, node), tv2)])))) := by
          simp only [propLoop]
          rw [ho]
          rfl
        rw [heq0, htn]
        simp only [Option.some_bind]
        rw [htotal2run]
        simp only [Option.some_bind]
        rw [htv2]
        simp only [Option.some_bind]
      rw [heq]
      have hkeys2 : total2.map (fun e => e.1) = pkeys t.parent := by
        rw [bump_keys htotal2run, hkeys]
      have htotal3 : ∀ x ∈ pkeys t.parent,
          alook total2 x = some (contribSum t g x +
          (((childrenOf t.parent x).filter
            (fun ch => decide (ch ∈ P ++ [node]))).map (subSum t g)).sum) := by
        intro x hx
        rw [bump_alook htotal2run x, htotal x hx]
        by_cases hxp : p = x
        · subst hxp
          have hmemch : node ∈ childrenOf t.parent p :=
            mem_childrenOf_of_parentF hpf
          have hsnoc := filter_snoc_sum (childrenOf_nodup ht.keysNodup p)
            hmemch hnodeP (subSum t g)
          simp only [Option.map_some', if_pos rfl, if_true]
          rw [hsnoc]
          ring_nf
        · have hfc : (childrenOf t.parent x).filter
              (fun ch => decide (ch ∈ P ++ [node])) =
              (childrenOf t.parent x).filter (fun ch => decide (ch ∈ P)) := by
            apply filter_congr_mem
            intro ch hch
            have hne : ch ≠ node := by
              intro hh
              subst hh
              have := parentF_of_mem_childrenOf ht.keysNodup hch
              rw [hpf] at this
              exact hxp (by injection this)
            simp [hne]
          rw [hfc]
          simp [hxp]
      have hct3 : ∀ c2 p2, parentF t.parent c2 = some p2 →
          c2 ∈ P ++ [node] →
          alook (ct ++ [((p, node), subSum t g node)]) (p2, c2) =
            some (subSum t g c2) := by
        intro c2 p2 hp2 hmem
        rcases List.mem_append.mp hmem with h | h
        · exact alook_append_some (hct c2 p2 hp2 h)
        · obtain rfl : c2 = node := by simpa using h
          rw [hpf] at hp2
          obtain rfl : p2 = p := by injection hp2.symm
          rw [alook_append_none hctnone]
          simp [alook]
      have hkct3 : ∀ k q,
          (k, q) ∈ ct ++ [((p, node), subSum t g node)] →
          k.2 ∈ P ++ [node] := by
        intro k q h
        rcases List.mem_append.mp h with h | h
        · exact List.mem_append.mpr (Or.inl (hkct k q h))
        · simp at h
          obtain ⟨rfl, _⟩ := h
          simp
      exact ih (P ++ [node]) total2 _ hsplitP2 hkeys2 htotal3 hct3 hkct3

/-- Running `compute_tree_capacities` on a constructed spanning tree
succeeds, and the produced `c_T` value of each oriented tree edge is the
capacity of the cut induced by the subtree below it. -/
theorem computeTreeCapacities_spec {t : TreeData} (ht : TreeOK t)
    {g : Graph}
    (hg : ∀ e ∈ g, e.1 ∈ pkeys t.parent ∧ e.2.1 ∈ pkeys t.parent) :
    ∃ ct, computeTreeCapacities g t = some ct ∧
      ∀ c p, parentF t.parent c = some p →
        alook ct (p, c) = some (cutCapacity g (descList t.parent c)) := by
  have hzk : ((pkeys t.parent).map (fun n => (n, (0 : ℚ)))).map
      (fun e => e.1) = pkeys t.parent := by
    have hco : ((fun (e : Node × ℚ) => e.1) ∘ fun n => (n, (0 : ℚ))) =
        fun n => n := rfl
    rw [List.map_map, hco, List.map_id']
  obtain ⟨add, haddrun, haddk, haddval⟩ := addLoop_spec ht g
    ((pkeys t.parent).map (fun n => (n, (0 : ℚ)))) hg hzk
  have hsplit0 : t.bfsOrder = t.bfsOrder.reverse.reverse ++
      ([] : List Node).reverse := by simp
  have htotal0 : ∀ x ∈ pkeys t.parent,
      alook add x = some (contribSum t g x +
      (((childrenOf t.parent x).filter
        (fun ch => decide (ch ∈ ([] : List Node)))).map (subSum t g)).sum) := by
    intro x hx
    rw [haddval x]
    rw [alook_const_map]
    rw [if_pos hx]
    simp
  obtain ⟨res, hrun, hres⟩ := propLoop_spec ht t.bfsOrder.reverse [] add []
    hsplit0 haddk htotal0
    (by intro c2 p2 _ h; exact (List.not_mem_nil _ h).elim)
    (by intro k q h; exact (List.not_mem_nil _ h).elim)
  refine ⟨res.2, ?_, ?_⟩
  · have heq0 : computeTreeCapacities g t =
        (addLoop t g ((pkeys t.parent).map (fun n => (n, (0 : ℚ))))).bind
          (fun add2 => (propLoop t t.bfsOrder.reverse add2 []).bind
            (fun res2 => some res2.2)) := rfl
    rw [heq0, haddrun]
    simp only [Option.some_bind]
    rw [hrun]
    simp only [Option.some_bind]
  · intro c p hp
    rw [hres c p hp]
    congr 1
    exact subSum_eq_cut ht (mem_pkeys_of_parentF hp) hg

/-- Claim **C1.** For every connected graph `G`, rooted spanning tree
`T` of `G` (a tree constructed over the endpoints of `G`), and oriented
tree edge `(parent, child)`, the value computed by
`compute_tree_capacities` for `(parent, child)` equals the sum of the
capacities `w(u, v)` over the graph edges with exactly one endpoint in
`subtree_nodes(child)`. -/
theorem c1_tree_capacities_cut (fuel : Nat) (root : Node) (pm : PMap)
    (t : TreeData) (g : Graph)
    (hk : (pkeys pm).Nodup) (hr : alook pm root = some none)
    (hinit : treeInit fuel root pm = some (Except.ok t))
    (hg : ∀ e ∈ g, e.1 ∈ pkeys pm ∧ e.2.1 ∈ pkeys pm) :
    ∃ ct, computeTreeCapacities g t = some ct ∧
      ∀ c p, parentF pm c = some p →
        ∃ stn, subtreeNodes t c = some stn ∧
          alook ct (p, c) = some (cutCapacity g stn) := by
  obtain ⟨hroot, hpar, ht⟩ := treeInit_ok hk hr hinit
  subst hpar
  obtain ⟨ct, hctrun, hctval⟩ := computeTreeCapacities_spec ht hg
  refine ⟨ct, hctrun, ?_⟩
  intro c p hp
  obtain ⟨stn, hstn, hnodup, hmem⟩ :=
    subtreeNodes_spec ht (mem_pkeys_of_parentF hp)
  refine ⟨stn, hstn, ?_⟩
  rw [hctval c p hp]
  congr 1
  unfold cutCapacity
  congr 1
  apply List.map_congr_left
  intro e _
  have h1 : (e.1 ∈ descList t.parent c) ↔ (e.1 ∈ stn) := by
    rw [hmem, mem_descList_iff ht]
  have h2 : (e.2.1 ∈ descList t.parent c) ↔ (e.2.1 ∈ stn) := by
    rw [hmem, mem_descList_iff ht]
  simp only [h1, h2]

/-! ## Per-edge congestion (`compute_edge_congestion`) -/

/-- Model of `LCA.dist(u, v)` under the prefix map `pf`:
`prefix[u] + prefix[v] - 2 * prefix[lca(u, v)]`; `none` models a raised
`KeyError`. -/
def distF (t : TreeData) (pf : List (Node × ℚ)) (u v : Node) : Option ℚ := do
  let a ← lcaFun t u v
  let pu ← alook pf u
  let pv ← alook pf v
  let pa ← alook pf a
  pure (pu + pv - 2 * pa)

/-- The edge loop of `compute_edge_congestion`: `+∞` when
`capacity <= 0`, otherwise `lca.dist(u, v) / capacity`.  Keyed by the
canonical `edge_key`; the graph object cannot hold duplicate unordered
edges, so the dict-assignment is an append. -/
def congLoop (t : TreeData) (pf : List (Node × ℚ)) :
    Graph → List ((Node × Node) × WithTop ℚ) →
    Option (List ((Node × Node) × WithTop ℚ))
  | [], acc => some acc
  | (u, v, cap) :: es, acc =>
    if cap ≤ 0 then congLoop t pf es (acc ++ [(ekey u v, (⊤ : WithTop ℚ))])
    else do
      let d ← distF t pf u v
      congLoop t pf es (acc ++ [(ekey u v, ((d / cap : ℚ) : WithTop ℚ))])

/-- Model of `compute_edge_congestion(graph, tree, lca, c_t)`:
`lca.set_edge_weights(c_t)` followed by the per-edge loop. -/
def computeEdgeCongestion (g : Graph) (t : TreeData)
    (ct : List ((Node × Node) × ℚ)) :
    Option (List ((Node × Node) × WithTop ℚ)) := do
  let pf ← setEdgeWeights t ct
  congLoop t pf g []

/-- Monotonicity of root-path sums along ancestor chains when all stored
weights are non-negative. -/
theorem chainSum_mono {t : TreeData} (ht : TreeOK t) {w : WMap}
    (hw : ∀ kv ∈ w, 0 ≤ kv.2) :
    ∀ (i : Nat) (v a : Node) (dv da : Nat),
      anc t.parent i v = some a →
      alook t.depth v = some dv → alook t.depth a = some da →
      chainSum t.parent w da a ≤ chainSum t.parent w dv v := by
  intro i
  induction i with
  | zero =>
    intro v a dv da hanc hdv hda
    simp [anc] at hanc
    subst hanc
    rw [hdv] at hda
    obtain rfl : dv = da := by injection hda
    exact le_refl _
  | succ i ih =>
    intro v a dv da hanc hdv hda
    simp only [anc] at hanc
    cases hp : parentF t.parent v with
    | none => rw [hp] at hanc; exact Option.noConfusion hanc
    | some p =>
      rw [hp] at hanc
      simp at hanc
      have hvk : v ∈ pkeys t.parent := ht.key_of_depth hdv
      have hpk : p ∈ pkeys t.parent := ht.anc_mem_keys hdv
        (by rw [anc_one]; exact hp)
      obtain ⟨dp, hdp⟩ := ht.depthTotal hpk
      have hdveq : dv = dp + 1 := by
        have := ht.depth_child hp hdp
        rw [hdv] at this
        injection this
      subst hdveq
      have hstep : chainSum t.parent w dp p ≤
          chainSum t.parent w (dp + 1) v := by
        have hceq : chainSum t.parent w (dp + 1) v =
            chainSum t.parent w dp p + (alook w (p, v)).getD 0 := by
          rw [chainSum, hp]
        rw [hceq]
        have hge : 0 ≤ (alook w (p, v)).getD 0 := by
          cases hkv : alook w (p, v) with
          | none => simp
          | some q =>
            simp
            exact hw _ (alook_mem hkv)
        linarith
      exact le_trans (ih p a dp da hanc hdp hda) hstep

theorem congLoop_spec {t : TreeData} {pf : List (Node × ℚ)} :
    ∀ (g : Graph) (acc : List ((Node × Node) × WithTop ℚ)),
      (∀ e ∈ g, 0 < e.2.2 →
        ∃ d, distF t pf e.1 e.2.1 = some d ∧ 0 ≤ d) →
      (g.map (fun e => ekey e.1 e.2.1)).Nodup →
      (∀ e ∈ g, alook acc (ekey e.1 e.2.1) = none) →
      ∃ res, congLoop t pf g acc = some res ∧
        (∀ k val, alook acc k = some val → alook res k = some val) ∧
        ∀ e ∈ g, ∃ val, alook res (ekey e.1 e.2.1) = some val ∧
          (val = ⊤ ↔ e.2.2 ≤ 0) ∧
          (0 < e.2.2 → ∃ q : ℚ, val = (q : WithTop ℚ) ∧ 0 ≤ q) := by
  intro g
  induction g with
  | nil =>
    intro acc _ _ _
    exact ⟨acc, rfl, fun k val h => h, fun e he => absurd he
      (List.not_mem_nil e)⟩
  | cons e0 es ih =>
    intro acc hpos hnd hacc
    obtain ⟨u, v, cap⟩ := e0
    rw [List.map_cons, List.nodup_cons] at hnd
    have haccnone : alook acc (ekey u v) = none := hacc (u, v, cap) (by simp)
    by_cases hcap : cap ≤ 0
    · set acc2 := acc ++ [(ekey u v, (⊤ : WithTop ℚ))] with hacc2
      have hlook : alook acc2 (ekey u v) = some ⊤ := by
        rw [hacc2, alook_append_none haccnone]
        simp [alook]
      have haccnone2 : ∀ e ∈ es, alook acc2 (ekey e.1 e.2.1) = none := by
        intro e he
        have hne : ekey e.1 e.2.1 ≠ ekey u v := by
          intro hh
          exact hnd.1 (by rw [← hh]; exact List.mem_map.mpr ⟨e, he, rfl⟩)
        rw [hacc2, alook_append]
        rw [hacc e (by simp [he])]
        have hne2 : ¬(ekey u v = ekey e.1 e.2.1) := fun hh => hne hh.symm
        have hsg : alook [(ekey u v, (⊤ : WithTop ℚ))] (ekey e.1 e.2.1) =
            none := by
          simp [alook, hne2]
        rw [hsg]
        rfl
      obtain ⟨res, hrun, hstab, hval⟩ := ih acc2
        (fun e he hp => hpos e (by simp [he]) hp) hnd.2 haccnone2
      refine ⟨res, ?_, ?_, ?_⟩
      · simp only [congLoop, if_pos hcap]
        exact hrun
      · intro k val h
        exact hstab k val (by rw [hacc2, alook_append_some h])
      · intro e he
        rcases List.mem_cons.mp he with rfl | hmem
        · refine ⟨⊤, hstab _ _ hlook, ⟨fun _ => hcap, fun _ => rfl⟩, ?_⟩
          intro hlt
          exact absurd hcap (not_le.mpr hlt)
        · exact hval e hmem
    · have hlt : 0 < cap := not_le.mp hcap
      obtain ⟨d, hd, hdnn⟩ := hpos (u, v, cap) (by simp) hlt
      set acc2 := acc ++ [(ekey u v, ((d / cap : ℚ) : WithTop ℚ))] with hacc2
      have hlook : alook acc2 (ekey u v) =
          some ((d / cap : ℚ) : WithTop ℚ) := by
        rw [hacc2, alook_append_none haccnone]
        simp [alook]
      have haccnone2 : ∀ e ∈ es, alook acc2 (ekey e.1 e.2.1) = none := by
        intro e he
        have hne : ekey e.1 e.2.1 ≠ ekey u v := by
          intro hh
          exact hnd.1 (by rw [← hh]; exact List.mem_map.mpr ⟨e, he, rfl⟩)
        rw [hacc2, alook_append]
        rw [hacc e (by simp [he])]
        have hne2 : ¬(ekey u v = ekey e.1 e.2.1) := fun hh => hne hh.symm
        have hsing : alook [(ekey u v, ((d / cap : ℚ) : WithTop ℚ))]
            (ekey e.1 e.2.1) = none := by
          simp [alook, hne2]
        rw [hsing]
        rfl
      obtain ⟨res, hrun, hstab, hval⟩ := ih acc2
        (fun e he hp => hpos e (by simp [he]) hp) hnd.2 haccnone2
      refine ⟨res, ?_, ?_, ?_⟩
      · have heq : congLoop t pf ((u, v, cap) :: es) acc =
            (distF t pf u v).bind (fun d2 => congLoop t pf es
              (acc ++ [(ekey u v, ((d2 / cap : ℚ) : WithTop ℚ))])) := by
          simp only [congLoop, if_neg hcap]
          rfl
        rw [heq, hd]
        simp only [Option.some_bind]
        exact hrun
      · intro k val h
        exact hstab k val (by rw [hacc2, alook_append_some h])
      · intro e he
        rcases List.mem_cons.mp he with rfl | hmem
        · refine ⟨((d / cap : ℚ) : WithTop ℚ), hstab _ _ hlook, ?_, ?_⟩
          · constructor
            · intro hh
              exact absurd hh (WithTop.coe_ne_top)
            · intro hh
              exact absurd hh hcap
          · intro _
            exact ⟨d / cap, rfl, div_nonneg hdnn (le_of_lt hlt)⟩
        · exact hval e hmem

/-- Claim **C2.** For every graph edge `(u, v)`,
`compute_edge_congestion` reports `+∞` exactly when
`capacity(u, v) ≤ 0`; for every edge with positive capacity the returned
congestion is a finite non-negative rational, given the non-negative
tree capacities `c_T` produced by `compute_tree_capacities`. -/
theorem c2_congestion_inf_nonneg (fuel : Nat) (root : Node) (pm : PMap)
    (t : TreeData) (g : Graph) (ct : List ((Node × Node) × ℚ))
    (hk : (pkeys pm).Nodup) (hr : alook pm root = some none)
    (hinit : treeInit fuel root pm = some (Except.ok t))
    (hg : ∀ e ∈ g, e.1 ∈ pkeys pm ∧ e.2.1 ∈ pkeys pm)
    (hnd : (g.map (fun e => ekey e.1 e.2.1)).Nodup)
    (hctp : computeTreeCapacities g t = some ct)
    (hctnn : ∀ kv ∈ ct, 0 ≤ kv.2) :
    ∃ cong, computeEdgeCongestion g t ct = some cong ∧
      ∀ e ∈ g, ∃ val, alook cong (ekey e.1 e.2.1) = some val ∧
        (val = ⊤ ↔ e.2.2 ≤ 0) ∧
        (0 < e.2.2 → ∃ q : ℚ, val = (q : WithTop ℚ) ∧ 0 ≤ q) := by
  obtain ⟨hroot, hpar, ht⟩ := treeInit_ok hk hr hinit
  subst hpar
  obtain ⟨pf, hpf, hdom, hval⟩ := setEdgeWeights_spec ht ct
  have hdist : ∀ e ∈ g, 0 < e.2.2 →
      ∃ d, distF t pf e.1 e.2.1 = some d ∧ 0 ≤ d := by
    intro e he _
    obtain ⟨hu, hv⟩ := hg e he
    obtain ⟨du, hdu⟩ := ht.depthTotal hu
    obtain ⟨dv, hdv⟩ := ht.depthTotal hv
    obtain ⟨a, da, ha, hda, _, hau, hav, _⟩ := lcaFun_spec ht hdu hdv
    obtain ⟨ka, hka⟩ := id hau
    obtain ⟨kv, hkv⟩ := id hav
    have hak : a ∈ pkeys t.parent := ht.anc_mem_keys hdu hka
    obtain ⟨pu, hpu⟩ := Option.isSome_iff_exists.mp
      ((hdom e.1).mpr (Or.inr (ht.covers _ hu)))
    obtain ⟨pv, hpv⟩ := Option.isSome_iff_exists.mp
      ((hdom e.2.1).mpr (Or.inr (ht.covers _ hv)))
    obtain ⟨pa, hpa⟩ := Option.isSome_iff_exists.mp
      ((hdom a).mpr (Or.inr (ht.covers _ hak)))
    obtain ⟨du2, hdu2, hpuval⟩ := hval e.1 pu hpu
    obtain ⟨dv2, hdv2, hpvval⟩ := hval e.2.1 pv hpv
    obtain ⟨da2, hda2, hpaval⟩ := hval a pa hpa
    have hdu2e : du2 = du := by
      rw [hdu2] at hdu
      injection hdu
    have hdv2e : dv2 = dv := by
      rw [hdv2] at hdv
      injection hdv
    have hda2e : da2 = da := by
      rw [hda2] at hda
      injection hda
    have hle1 : pa ≤ pu := by
      rw [hpuval, hpaval, hdu2e, hda2e]
      exact chainSum_mono ht hctnn ka e.1 a du da hka hdu hda
    have hle2 : pa ≤ pv := by
      rw [hpvval, hpaval, hdv2e, hda2e]
      exact chainSum_mono ht hctnn kv e.2.1 a dv da hkv hdv hda
    refine ⟨pu + pv - 2 * pa, ?_, by linarith⟩
    have heq : distF t pf e.1 e.2.1 =
        (lcaFun t e.1 e.2.1).bind (fun a2 => (alook pf e.1).bind
          (fun pu2 => (alook pf e.2.1).bind (fun pv2 =>
            (alook pf a2).bind (fun pa2 =>
              some (pu2 + pv2 - 2 * pa2))))) := rfl
    rw [heq, ha]
    simp only [Option.some_bind]
    rw [hpu]
    simp only [Option.some_bind]
    rw [hpv]
    simp only [Option.some_bind]
    rw [hpa]
    simp only [Option.some_bind]
  obtain ⟨cong, hrun, _, hprops⟩ := congLoop_spec g [] hdist hnd
    (fun e _ => rfl)
  refine ⟨cong, ?_, hprops⟩
  have heq : computeEdgeCongestion g t ct =
      (setEdgeWeights t ct).bind (fun pf2 => congLoop t pf2 g []) := rfl
  rw [heq, hpf]
  simp only [Option.some_bind]
  exact hrun

/-- The unit-capacity triangle graph of spec scenario S1, with
`A = 0`, `B = 1`, `C = 2`. -/
def triG : Graph := [(0, 1, 1), (1, 2, 1), (0, 2, 1)]

/-! ## Claim C7: constructor error behaviour (`tree.py`) -/

/-- The parent map `{A: A}` (with `A = 0`): the root is present, but its
entry is itself rather than `None` — the case the claim says the
constructor must reject.  `Tree.__init__` only checks `root not in parent`,
so it accepts this map and starts its BFS. -/
def selfPM : PMap := [(0, some 0)]

/-- On `selfPM` the BFS never finishes: node `0` is its own child, so each
dequeue of `0` re-enqueues `0`, whatever state the loop has reached. -/
theorem bfsAux_selfPM_none (fuel : Nat) :
    ∀ order dep, (alook dep 0).isSome →
      bfsAux selfPM fuel [0] order dep = none := by
  induction fuel with
  | zero => intro order dep _; rfl
  | succ f ih =>
    intro order dep h
    obtain ⟨d, hd⟩ := Option.isSome_iff_exists.mp h
    have heq : bfsAux selfPM (f + 1) [0] order dep =
        (match alook dep 0 with
          | none => none
          | some d =>
            bfsAux selfPM f [0] (order ++ [0]) ((0, d + 1) :: dep)) := rfl
    rw [heq, hd]
    exact ih (order ++ [0]) ((0, d + 1) :: dep) (by simp [alook])

/-- Claim **C7** (code-bug evidence).  The claim says the constructor
raises an error when `parent_map[root]` is not `None`.  On `root = A`,
`parent_map = {A: A}` the code does not: the only guard is
`root not in parent`, and the depth-assigning BFS loop then re-enqueues
`A` forever, so the constructor neither raises nor returns — modelled
here as `treeInit` returning `none` (loop unfinished) for every fuel. -/
theorem c7_tree_constructor_diverges (fuel : Nat) :
    treeInit fuel 0 selfPM = none := by
  have hb : bfsAux selfPM fuel [0] [] [(0, 0)] = none :=
    bfsAux_selfPM_none fuel [] [(0, 0)] (by simp [alook])
  unfold treeInit
  rw [if_pos (by simp [alook]), hb]

/-! ## Claim C8: candidate-root sampling in `run_mwu` (`cli.py`) -/

/-- The candidate-root draws of one MWU iteration:
`for _ in range(r): root = rng.choice(nodes)`.  Each call of
`rng.choice(nodes)` picks one element of `nodes`; the generator is
modelled as an oracle stream of indices, reduced modulo `len(nodes)` so
that every stream denotes a possible sequence of outcomes.  Nothing
removes a drawn root from `nodes`, so the draws are with replacement. -/
def drawRoots (oracle : Nat → Nat) (nodes : List Node) (r : Nat) : List Node :=
  (List.range r).map (fun i => nodes.getD (oracle i % nodes.length) 0)

/-- Claim **C8** (amended).  `run_mwu` draws its candidate roots with
replacement — one independent `rng.choice(nodes)` per candidate — so
`R ≤ |V|` gives no distinctness guarantee.  The drawn roots are pairwise
distinct exactly when the underlying index draws are pairwise distinct
modulo `|V|`, which no code enforces (see the repeated-roots run). -/
theorem c8_roots_distinct_iff (oracle : Nat → Nat) (nodes : List Node)
    (r : Nat) (hnd : nodes.Nodup) (hne : nodes ≠ []) :
    (drawRoots oracle nodes r).Nodup ↔
      ∀ i < r, ∀ j < r, i ≠ j →
        oracle i % nodes.length ≠ oracle j % nodes.length := by
  have hlen : 0 < nodes.length := List.length_pos.mpr hne
  unfold drawRoots
  rw [List.nodup_map_iff_inj_on (List.nodup_range r)]
  constructor
  · intro h i hi j hj hij hcon
    exact hij (h i (List.mem_range.mpr hi) j (List.mem_range.mpr hj)
      (by rw [hcon]))
  · intro h i hi j hj heq
    by_contra hij
    have h1 : oracle i % nodes.length < nodes.length := Nat.mod_lt _ hlen
    have h2 : oracle j % nodes.length < nodes.length := Nat.mod_lt _ hlen
    rw [nodes.getD_eq_getElem 0 h1, nodes.getD_eq_getElem 0 h2] at heq
    exact h i (List.mem_range.mp hi) j (List.mem_range.mp hj) hij
      ((List.Nodup.getElem_inj_iff hnd).mp heq)

/-- With three nodes and `R = 2 ≤ |V|`, the outcome stream that repeats
index 0 draws the same root twice: the claim's pairwise distinctness
fails. -/
theorem c8_repeated_roots :
    2 ≤ ([0, 1, 2] : List Node).length ∧
    drawRoots (fun _ => 0) [0, 1, 2] 2 = [0, 0] ∧
    ¬ (drawRoots (fun _ => 0) [0, 1, 2] 2).Nodup :=
  ⟨by decide, by decide, by decide⟩

theorem c8_roots_distinct_iff_witness :
    ([0, 1, 2] : List Node).Nodup ∧ ([0, 1, 2] : List Node) ≠ [] ∧
    ((drawRoots (fun i => i) [0, 1, 2] 2).Nodup ↔
      ∀ i < 2, ∀ j < 2, i ≠ j → i % 3 ≠ j % 3) :=
  ⟨by decide, by decide,
    c8_roots_distinct_iff (fun i => i) [0, 1, 2] 2 (by decide) (by decide)⟩

/-! ## Claim C9: `load_graph` and self-loops (`io.py`) -/

/-- A Python string, modelled as its character list (so that the model
evaluates; `String.mk` recovers the `String`). -/
abbrev PyStr := List Char

/-- Whitespace test used by `str.strip()` and `str.split()`. -/
def isWS (c : Char) : Bool := c.isWhitespace

/-- Model of `str.strip()`. -/
def stripChars (l : PyStr) : PyStr :=
  ((l.dropWhile isWS).reverse.dropWhile isWS).reverse

/-- Helper of `tokens`: accumulate the current whitespace-free run. -/
def tokensAux : PyStr → PyStr → List PyStr
  | [], acc => if acc = [] then [] else [acc.reverse]
  | c :: rest, acc =>
    if isWS c then
      if acc = [] then tokensAux rest []
      else acc.reverse :: tokensAux rest []
    else tokensAux rest (c :: acc)

/-- Tokenisation of Python `line.split()`: the maximal whitespace-free
runs, with no empty pieces. -/
def tokens (line : PyStr) : List PyStr := tokensAux line []

/-- Whether every character is a decimal digit. -/
def allDigits (l : PyStr) : Bool := l.all (fun c => c.isDigit)

/-- The value of a decimal digit string. -/
def digitsNat (l : PyStr) : Nat :=
  l.foldl (fun a c => 10 * a + (c.toNat - 48)) 0

/-- Split a character list at its first dot, if any. -/
def splitDot : PyStr → PyStr × Option PyStr
  | [] => ([], none)
  | c :: rest =>
    if c = '.' then ([], some rest)
    else
      let p := splitDot rest
      (c :: p.1, p.2)

/-- Model of the accepting cases of Python `float()` on plain decimal
literals: optional sign, digits, optional fractional part.  Exponents and
special values are left out; every string this parser accepts, `float()`
accepts with the same value, and `none` models the raised `ValueError`. -/
def parseFloat (cs : PyStr) : Option ℚ :=
  let sgn : ℚ × PyStr :=
    match cs with
    | c :: rest =>
      if c = '-' then (-1, rest) else if c = '+' then (1, rest) else (1, cs)
    | [] => (1, [])
  let body := sgn.2
  let p := splitDot body
  match p.2 with
  | none =>
    if body ≠ [] ∧ allDigits body then some (sgn.1 * digitsNat body)
    else none
  | some fp =>
    if (p.1 ≠ [] ∨ fp ≠ []) ∧ allDigits p.1 ∧ allDigits fp then
      some (sgn.1 *
        ((digitsNat p.1 : ℚ) + (digitsNat fp : ℚ) / (10 ^ fp.length)))
    else none

/-- An undirected string-labelled graph as `networkx` holds it: the edge
list in insertion order, with unordered-pair key matching. -/
abbrev SGraph := List ((PyStr × PyStr) × ℚ)

/-- Whether the stored key `k` names the unordered edge `{u, v}`. -/
def sameEdge (k : PyStr × PyStr) (u v : PyStr) : Bool :=
  (k.1 == u && k.2 == v) || (k.1 == v && k.2 == u)

/-- Model of `graph.has_edge(u, v)`. -/
def hasEdgeG (g : SGraph) (u v : PyStr) : Bool :=
  g.any (fun e => sameEdge e.1 u v)

/-- Model of `graph[u][v][CAPACITY_KEY] += weight`. -/
def bumpEdgeG : SGraph → PyStr → PyStr → ℚ → SGraph
  | [], _, _, _ => []
  | e :: rest, u, v, w =>
    if sameEdge e.1 u v then (e.1, e.2 + w) :: rest
    else e :: bumpEdgeG rest u v w

/-- One loop body of `load_graph`: skip blank and comment lines, require
exactly three tokens, parse the capacity, merge a duplicate unordered
edge by summing, otherwise add the new edge.  `Except.error` models the
raised `ValueError` (including the one `float()` raises).  There is no
check that the two node tokens differ. -/
def procLine (g : SGraph) (raw : PyStr) : Except String SGraph :=
  let line := stripChars raw
  if line.isEmpty || line.take 1 == ['#'] then .ok g
  else
    match tokens line with
    | [u, v, wtxt] =>
      match parseFloat wtxt with
      | none =>
        .error ("could not convert string to float: " ++ String.mk wtxt)
      | some w =>
        if hasEdgeG g u v then .ok (bumpEdgeG g u v w)
        else .ok (g ++ [((u, v), w)])
    | _ => .error ("Malformed line in edge list: " ++ String.mk line)

/-- The fold of `procLine` over the lines of the input file. -/
def loadGraphAux : SGraph → List PyStr → Except String SGraph
  | g, [] => .ok g
  | g, l :: ls =>
    match procLine g l with
    | .error e => .error e
    | .ok g2 => loadGraphAux g2 ls

/-- Model of `load_graph`, over the list of lines of the input file. -/
def loadGraph (lines : List PyStr) : Except String SGraph :=
  loadGraphAux [] lines

/-- Claim **C9** (amended).  `load_graph` does not reject self-loops: a
file whose edge line is well formed but has equal node tokens loads
successfully, and the resulting graph contains the self-loop edge. -/
theorem c9_self_loop_accepted (l u wtxt : PyStr) (w : ℚ)
    (hskip : ((stripChars l).isEmpty || (stripChars l).take 1 == ['#']) =
      false)
    (htok : tokens (stripChars l) = [u, u, wtxt])
    (hw : parseFloat wtxt = some w) :
    loadGraph [l] = .ok [((u, u), w)] := by
  have hproc : procLine [] l = .ok [((u, u), w)] := by
    simp only [procLine, hskip, htok, hw, hasEdgeG, List.any_nil,
      Bool.false_eq_true, if_false, List.nil_append]
  have h2 : loadGraph [l] =
      (match procLine [] l with
        | .error e => .error e
        | .ok g2 => loadGraphAux g2 []) := rfl
  rw [h2, hproc]
  rfl

/-! ## Claim C10: tree serialisation round-trip (`cli.py`) -/

/-- Model of `Tree.edges()` on a parent map:
`[(par, node) for node, par in parent.items() if par is not None]`. -/
def pmEdges (pm : PMap) : List (Node × Node) :=
  pm.filterMap (fun e => (e.2).map (fun p => (p, e.1)))

/-- The oriented edges of a constructed tree. -/
def treeEdges (t : TreeData) : List (Node × Node) := pmEdges t.parent

/-- Python dict assignment `d[k] = v`: update the binding in place if the
key exists, otherwise append it. -/
def dset : PMap → Node → Option Node → PMap
  | [], k, v => [(k, v)]
  | (a, b) :: rest, k, v =>
    if a = k then (a, v) :: rest else (a, b) :: dset rest k v

/-- Python `d.setdefault(k, v)`. -/
def dsetdefault (d : PMap) (k : Node) (v : Option Node) : PMap :=
  if (alook d k).isSome then d else d ++ [(k, v)]

/-- A mixture record, as `_tree_to_record` builds it. -/
structure TreeRecord where
  root : Node
  edges : List (Node × Node)
  count : Nat
  prob : ℚ
deriving DecidableEq

/-- Model of `_tree_to_record(tree, count, total)`. -/
def treeToRecord (t : TreeData) (count total : Nat) : TreeRecord :=
  ⟨t.root, treeEdges t, count,
    if total ≠ 0 then (count : ℚ) / total else 0⟩

/-- Model of `_record_to_tree(record, nodes)` (whose final
`Tree.from_parent_map` call is the plain constructor): rebuild the parent
dict — `{root: None}`, then `parent[v] = u` per edge, then a `setdefault`
per node — and construct the tree. -/
def recordToTree (fuel : Nat) (record : TreeRecord) (nodes : List Node) :
    Option (Except String TreeData) :=
  treeInit fuel record.root
    (nodes.foldl
      (fun d n =>
        dsetdefault d n (if n = record.root then none else some record.root))
      (record.edges.foldl (fun d e => dset d e.2 (some e.1))
        [(record.root, none)]))

/-- Lexicographic comparison of canonical edge keys (Python tuple order). -/
def pairLeB (a b : Node × Node) : Bool :=
  decide (a.1 < b.1) || (a.1 == b.1 && decide (a.2 ≤ b.2))

/-- Insert `x` after every element `le`-below or tied with it: the
insertion step of a stable sort. -/
def insertLe {α : Type} (le : α → α → Bool) (x : α) : List α → List α
  | [] => [x]
  | y :: ys => if le y x then y :: insertLe le x ys else x :: y :: ys

/-- Stable insertion sort by `le`: a model of Python `list.sort` and
`sorted` (both stable; a stable sort's output is unique, so any stable
sort is the faithful model). -/
def stableSortBy {α : Type} (le : α → α → Bool) (l : List α) : List α :=
  l.foldl (fun acc x => insertLe le x acc) []

/-- Model of `_tree_signature`: the sorted canonical edge keys. -/
def treeSig (t : TreeData) : List (Node × Node) :=
  stableSortBy pairLeB ((treeEdges t).map (fun e => ekey e.1 e.2))

theorem dset_not_mem (k : Node) (v : Option Node) :
    ∀ d : PMap, k ∉ pkeys d → dset d k v = d ++ [(k, v)] := by
  intro d
  induction d with
  | nil => intro _; rfl
  | cons e rest ih =>
    intro h
    obtain ⟨a, b⟩ := e
    simp only [pkeys, List.map_cons, List.mem_cons] at h
    push_neg at h
    have hne : ¬ (a = k) := fun hh => h.1 hh.symm
    show (if a = k then (a, v) :: rest else (a, b) :: dset rest k v) =
      (a, b) :: rest ++ [(k, v)]
    rw [if_neg hne, ih (by simpa [pkeys] using h.2)]
    simp

theorem foldl_dset_fresh :
    ∀ (es : List (Node × Node)) (d : PMap),
      (es.map (fun e => e.2)).Nodup →
      (∀ e ∈ es, e.2 ∉ pkeys d) →
      es.foldl (fun d e => dset d e.2 (some e.1)) d =
        d ++ es.map (fun e => (e.2, some e.1)) := by
  intro es
  induction es with
  | nil => intro d _ _; simp
  | cons e rest ih =>
    intro d hnd hfresh
    have hnd2 := List.nodup_cons.mp
      (show (e.2 :: rest.map (fun x => x.2)).Nodup by simpa using hnd)
    simp only [List.foldl_cons]
    rw [dset_not_mem e.2 (some e.1) d (hfresh e (List.mem_cons_self e rest))]
    rw [ih (d ++ [(e.2, some e.1)]) hnd2.2 ?fresh]
    · simp
    case fresh =>
      intro e2 he2
      have h1 : e2.2 ∉ pkeys d := hfresh e2 (List.mem_cons_of_mem _ he2)
      have h2 : e2.2 ≠ e.2 := by
        intro hcon
        exact hnd2.1 (hcon ▸ List.mem_map_of_mem (fun x => x.2) he2)
      intro hc
      rcases (show e2.2 ∈ pkeys d ∨ e2.2 = e.2 by
          simpa [pkeys] using hc) with hc1 | hc1
      · exact h1 hc1
      · exact h2 hc1

theorem foldl_dsetdefault_mem (r0 : Node) :
    ∀ (ns : List Node) (d : PMap),
      (∀ n ∈ ns, n ∈ pkeys d) →
      ns.foldl
        (fun d n => dsetdefault d n (if n = r0 then none else some r0)) d =
        d := by
  intro ns
  induction ns with
  | nil => intro d _; rfl
  | cons n rest ih =>
    intro d h
    simp only [List.foldl_cons]
    have hd : dsetdefault d n (if n = r0 then none else some r0) = d := by
      unfold dsetdefault
      rw [if_pos (alook_isSome_iff.mpr (h n (List.mem_cons_self _ _)))]
    rw [hd]
    exact ih d (fun m hm => h m (List.mem_cons_of_mem _ hm))

theorem mem_pmEdges_iff {pm : PMap} {p c : Node} :
    (p, c) ∈ pmEdges pm ↔ (c, some p) ∈ pm := by
  unfold pmEdges
  rw [List.mem_filterMap]
  constructor
  · rintro ⟨⟨a, ob⟩, hmem, hmap⟩
    cases ob with
    | none => simp at hmap
    | some q =>
      simp only [Option.map_some'] at hmap
      obtain ⟨rfl, rfl⟩ := Prod.ext_iff.mp (Option.some.inj hmap)
      exact hmem
  · intro h
    exact ⟨(c, some p), h, rfl⟩

/-- The children named by a parent map's oriented edges. -/
def childList (pm : PMap) : List Node := (pmEdges pm).map (fun e => e.2)

theorem childList_sublist (pm : PMap) :
    (childList pm).Sublist (pkeys pm) := by
  unfold childList pmEdges pkeys
  induction pm with
  | nil => simp
  | cons e rest ih =>
    cases he : e.2 with
    | none =>
      simp only [List.filterMap_cons, he, Option.map_none', List.map_cons]
      exact ih.cons e.1
    | some p =>
      simp only [List.filterMap_cons, he, Option.map_some', List.map_cons]
      exact ih.cons₂ e.1

theorem childList_nodup {pm : PMap} (hk : (pkeys pm).Nodup) :
    (childList pm).Nodup := (childList_sublist pm).nodup hk

theorem childList_ne_root {pm : PMap} {root : Node}
    (hk : (pkeys pm).Nodup) (hr : alook pm root = some none) :
    root ∉ childList pm := by
  intro hmem
  obtain ⟨⟨p, c⟩, he, hc⟩ := List.mem_map.mp hmem
  dsimp only at hc
  have : alook pm c = some (some p) := mem_alook hk (mem_pmEdges_iff.mp he)
  rw [hc, hr] at this
  exact Option.noConfusion (Option.some.inj this)

theorem pmEdges_cons_none (r0 : Node) (l : PMap) :
    pmEdges ((r0, none) :: l) = pmEdges l := by
  simp [pmEdges, List.filterMap_cons]

theorem pmEdges_roundtrip (es : List (Node × Node)) :
    pmEdges (es.map (fun e => (e.2, some e.1))) = es := by
  induction es with
  | nil => rfl
  | cons e rest ih =>
    show List.filterMap _ ((e.2, some e.1) :: rest.map _) = e :: rest
    rw [List.filterMap_cons]
    show (e.1, e.2) :: pmEdges (rest.map (fun e => (e.2, some e.1))) =
      e :: rest
    rw [Prod.mk.eta, ih]

theorem anc_congr {pm1 pm2 : PMap}
    (h : ∀ v, parentF pm1 v = parentF pm2 v) :
    ∀ k v, anc pm1 k v = anc pm2 k v := by
  intro k
  induction k with
  | zero => intro v; rfl
  | succ k ih =>
    intro v
    show (parentF pm1 v).bind (anc pm1 k) = (parentF pm2 v).bind (anc pm2 k)
    rw [h v]
    cases parentF pm2 v with
    | none => rfl
    | some p => simpa using ih p

/-- Claim **C10.** Serialising a tree and reading it back is the identity
on tree structure: on any constructed tree `t` spanning `nodes`, and any
`count` and `total`, `_record_to_tree(_tree_to_record(t, count, total),
nodes)` succeeds and returns a tree with the same root, the same
parent-map lookups, the same oriented edge list, and hence the same
signature. -/
theorem c10_record_round_trip (fuel : Nat) (root : Node) (pm : PMap)
    (t : TreeData) (nodes : List Node) (count total : Nat)
    (hk : (pkeys pm).Nodup) (hr : alook pm root = some none)
    (hinit : treeInit fuel root pm = some (Except.ok t))
    (hn1 : ∀ v ∈ nodes, v ∈ pkeys pm)
    (hn2 : ∀ v ∈ pkeys pm, v ∈ nodes) :
    ∃ fuel2 t2,
      recordToTree fuel2 (treeToRecord t count total) nodes =
        some (Except.ok t2) ∧
      t2.root = t.root ∧
      (∀ v, alook t2.parent v = alook t.parent v) ∧
      treeEdges t2 = treeEdges t ∧
      treeSig t2 = treeSig t := by
  obtain ⟨hroot, hparent, ht⟩ := treeInit_ok hk hr hinit
  have hcn : ((pmEdges pm).map (fun e => e.2)).Nodup := childList_nodup hk
  have hcr : root ∉ (pmEdges pm).map (fun e => e.2) := childList_ne_root hk hr
  have hfold : (pmEdges pm).foldl (fun d e => dset d e.2 (some e.1))
      [(root, none)] =
      [(root, none)] ++ (pmEdges pm).map (fun e => (e.2, some e.1)) := by
    apply foldl_dset_fresh (pmEdges pm) [(root, none)] hcn
    intro e he hmem
    have he2 : e.2 = root := by simpa [pkeys] using hmem
    exact hcr (he2 ▸ List.mem_map_of_mem (fun x => x.2) he)
  have hkeys1 : pkeys ((root, none) ::
      (pmEdges pm).map (fun e => (e.2, some e.1))) =
      root :: (pmEdges pm).map (fun e => e.2) := by
    simp only [pkeys, List.map_cons, List.map_map]
    rfl
  have hnk1 : (pkeys ((root, none) ::
      (pmEdges pm).map (fun e => (e.2, some e.1)))).Nodup := by
    rw [hkeys1]
    exact List.nodup_cons.mpr ⟨hcr, hcn⟩
  have hlook : ∀ v, alook ((root, none) ::
      (pmEdges pm).map (fun e => (e.2, some e.1))) v = alook pm v := by
    intro v
    by_cases hv : v = root
    · subst hv
      rw [hr]
      simp [alook]
    · have hhead : alook ((root, none) ::
          (pmEdges pm).map (fun e => (e.2, some e.1))) v =
          alook ((pmEdges pm).map (fun e => (e.2, some e.1))) v := by
        have hne : ¬ (root = v) := fun hh => hv hh.symm
        simp [alook, hne]
      rw [hhead]
      by_cases hc : v ∈ (pmEdges pm).map (fun e => e.2)
      · obtain ⟨⟨p, c⟩, he, hcv⟩ := List.mem_map.mp hc
        dsimp only at hcv
        subst hcv
        have h1 : alook pm c = some (some p) :=
          mem_alook hk (mem_pmEdges_iff.mp he)
        have h2 : alook ((pmEdges pm).map (fun e => (e.2, some e.1))) c =
            some (some p) := by
          apply mem_alook
          · have hmm : ((pmEdges pm).map (fun e => (e.2, some e.1))).map
                (fun x => x.1) = (pmEdges pm).map (fun e => e.2) := by
              simp [List.map_map]
            rw [hmm]
            exact hcn
          · exact List.mem_map.mpr ⟨(p, c), he, rfl⟩
        rw [h1, h2]
      · have h2 : alook ((pmEdges pm).map (fun e => (e.2, some e.1))) v =
            none := by
          apply alook_eq_none_iff.mpr
          intro hc2
          apply hc
          have hmm : ((pmEdges pm).map (fun e => (e.2, some e.1))).map
              (fun x => x.1) = (pmEdges pm).map (fun e => e.2) := by
            simp [List.map_map]
          rw [hmm] at hc2
          exact hc2
        rw [h2]
        cases hax : alook pm v with
        | none => rfl
        | some b =>
          cases b with
          | none =>
            have hvk : v ∈ pkeys pm := alook_isSome_iff.mp (by simp [hax])
            obtain ⟨d, hd⟩ := ht.depthTotal (by rw [hparent]; exact hvk)
            have hvr : v = t.root := ht.root_of_parentF_none hd
              (by rw [hparent]; simp [parentF, hax])
            rw [hroot] at hvr
            exact absurd hvr hv
          | some p =>
            have hpe : (p, v) ∈ pmEdges pm :=
              mem_pmEdges_iff.mpr (alook_mem hax)
            exact absurd (List.mem_map.mpr ⟨(p, v), hpe, rfl⟩) hc
  have hpf : ∀ x, parentF ((root, none) ::
      (pmEdges pm).map (fun e => (e.2, some e.1))) x = parentF pm x := by
    intro x
    unfold parentF
    rw [hlook x]
  have hreach : ∀ v ∈ pkeys ((root, none) ::
      (pmEdges pm).map (fun e => (e.2, some e.1))),
      ∃ k, anc ((root, none) ::
        (pmEdges pm).map (fun e => (e.2, some e.1))) k v = some root := by
    intro v hv
    have hvpm : v ∈ pkeys pm := by
      have hs := alook_isSome_iff.mpr hv
      rw [hlook v] at hs
      exact alook_isSome_iff.mp hs
    obtain ⟨d, hd⟩ := ht.depthTotal (by rw [hparent]; exact hvpm)
    have hs := ht.depthSound hd
    rw [hparent, hroot] at hs
    exact ⟨d, by rw [anc_congr hpf d v]; exact hs⟩
  have hvalid : ValidPM root ((root, none) ::
      (pmEdges pm).map (fun e => (e.2, some e.1))) :=
    ⟨hnk1, by simp [alook], hreach⟩
  obtain ⟨t2, hinit2, hroot2, hparent2⟩ := treeInit_ok_of_valid hvalid
    ((pkeys ((root, none) ::
      (pmEdges pm).map (fun e => (e.2, some e.1)))).length + 1) le_rfl
  refine ⟨(pkeys ((root, none) ::
      (pmEdges pm).map (fun e => (e.2, some e.1)))).length + 1,
    t2, ?_, ?_, ?_, ?_, ?_⟩
  · unfold recordToTree
    have hR : (treeToRecord t count total).root = root :=
      Eq.trans rfl hroot
    have hEd : (treeToRecord t count total).edges = pmEdges pm := by
      show treeEdges t = pmEdges pm
      rw [treeEdges, hparent]
    rw [hR, hEd, hfold]
    rw [foldl_dsetdefault_mem root nodes _ ?memall]
    · exact hinit2
    case memall =>
      intro n hn
      have hnp : n ∈ pkeys pm := hn1 n hn
      have hsome : (alook ((root, none) ::
          (pmEdges pm).map (fun e => (e.2, some e.1))) n).isSome := by
        rw [hlook n]
        exact alook_isSome_iff.mpr hnp
      exact alook_isSome_iff.mp hsome
  · rw [hroot2, hroot]
  · intro v
    rw [hparent2, hparent]
    exact hlook v
  · have hone : treeEdges t2 = pmEdges pm := by
      rw [treeEdges, hparent2, pmEdges_cons_none, pmEdges_roundtrip]
    rw [hone, treeEdges, hparent]
  · have hone : treeEdges t2 = treeEdges t := by
      have h1 : treeEdges t2 = pmEdges pm := by
        rw [treeEdges, hparent2, pmEdges_cons_none, pmEdges_roundtrip]
      rw [h1, treeEdges, hparent]
    unfold treeSig
    rw [hone]

theorem c10_record_round_trip_witness :
    (pkeys triPM).Nodup ∧ alook triPM 0 = some none ∧
    treeInit 10 0 triPM = some (Except.ok triTree) ∧
    (∀ v ∈ ([0, 1, 2] : List Node), v ∈ pkeys triPM) ∧
    (∀ v ∈ pkeys triPM, v ∈ ([0, 1, 2] : List Node)) ∧
    (∃ fuel2 t2,
      recordToTree fuel2 (treeToRecord triTree 1 2) [0, 1, 2] =
        some (Except.ok t2) ∧
      t2.root = triTree.root ∧
      (∀ v, alook t2.parent v = alook triTree.parent v) ∧
      treeEdges t2 = treeEdges triTree ∧
      treeSig t2 = treeSig triTree) :=
  ⟨by decide, rfl, rfl, by decide, by decide,
    c10_record_round_trip 10 0 triPM triTree [0, 1, 2] 1 2 (by decide) rfl
      rfl (by decide) (by decide)⟩

/-! ## Claim C6: bottleneck-cut assembly in `fit` (`cuts.py`, `report.py`,
`cli.py`) -/

/-- One candidate cut, as `extract_tree_cuts` records it. -/
structure CutEntry where
  edge : Node × Node
  capacity : ℚ
  nodes : List Node
deriving DecidableEq

/-- Model of `extract_tree_cuts(graph, tree, top_k)`: one cut per tree
edge, over the child subtree, sorted by capacity ascending (Python sort
is stable, as is `mergeSort`), truncated when `top_k` is given.  The
`subtree_cache` of the source is semantically transparent: each child
occurs on one tree edge. -/
def extractTreeCuts (g : Graph) (t : TreeData) (topk : Option Nat) :
    Option (List CutEntry) := do
  let entries ← (treeEdges t).mapM (fun e => do
    let stn ← subtreeNodes t e.2
    pure (⟨e, cutCapacity g stn, stn⟩ : CutEntry))
  let sorted :=
    stableSortBy (fun a b => decide (a.capacity ≤ b.capacity)) entries
  pure (match topk with
    | some k => sorted.take k
    | none => sorted)

/-- One `bottleneck_cuts` entry of `assemble_report`. -/
structure ReportCut where
  edge : Node × Node
  capacity : ℚ
  nodes : List Node
  truncated : Bool
deriving DecidableEq

/-- The `bottleneck_cuts` list of `assemble_report`: the first
`top_k_cuts = 10` entries of `cuts` in the order given — no sort. -/
def assembleBottleneckCuts (cuts : List CutEntry) : List ReportCut :=
  (cuts.take 10).map
    (fun c =>
      ⟨c.edge, c.capacity, c.nodes.take 30, decide (30 < c.nodes.length)⟩)

/-- The `all_cuts` accumulation of `fit`: per mixture record, rebuild the
tree and extend with that tree's sorted cut list (there is no global
sort). -/
def fitAllCuts (fuel : Nat) (g : Graph) (nodes : List Node) :
    List TreeRecord → Option (Except String (List CutEntry))
  | [] => some (Except.ok [])
  | record :: rest =>
    match recordToTree fuel record nodes with
    | none => none
    | some (Except.error e) => some (Except.error e)
    | some (Except.ok t) =>
      match extractTreeCuts g t none with
      | none => none
      | some cs =>
        match fitAllCuts fuel g nodes rest with
        | none => none
        | some (Except.error e) => some (Except.error e)
        | some (Except.ok rest2) => some (Except.ok (cs ++ rest2))

/-- The `bottleneck_cuts` list of the report that `fit` writes. -/
def fitBottleneckCuts (fuel : Nat) (g : Graph) (mixture : List TreeRecord)
    (nodes : List Node) : Option (Except String (List ReportCut)) :=
  match fitAllCuts fuel g nodes mixture with
  | none => none
  | some (Except.error e) => some (Except.error e)
  | some (Except.ok all) => some (Except.ok (assembleBottleneckCuts all))

/-- The square graph `A-B-C-D-A` with capacities 2, 2, 2, 1
(`A = 0, B = 1, C = 2, D = 3`). -/
def sqG : Graph := [(0, 1, 2), (1, 2, 2), (2, 3, 2), (0, 3, 1)]

/-- Mixture record of the path tree `A-B-C` plus the edge `A-D`. -/
def sqRec1 : TreeRecord := ⟨0, [(0, 1), (1, 2), (0, 3)], 1, 1 / 2⟩

/-- Mixture record of the star at `A` with `C` hanging under `D`. -/
def sqRec2 : TreeRecord := ⟨0, [(0, 1), (0, 3), (3, 2)], 1, 1 / 2⟩

section

set_option allowUnsafeReducibility true

attribute [local semireducible] Rat.add Rat.mul Rat.sub Rat.div Rat.inv Rat.neg

/-- Claim **C3.** On the triangle graph with unit-capacity edges
`{A,B}, {B,C}, {A,C}` and the path tree `A-B-C` rooted at `A`,
`compute_tree_capacities` yields `c_T(A,B) = 2` and `c_T(B,C) = 2`, and
`compute_edge_congestion` then yields `cong_T(A,B) = 2`,
`cong_T(B,C) = 2` and `cong_T(A,C) = 4`. -/
theorem c3_triangle_scenario :
    treeInit 10 0 triPM = some (Except.ok triTree) ∧
    (∃ ct, computeTreeCapacities triG triTree = some ct ∧
      alook ct (0, 1) = some 2 ∧ alook ct (1, 2) = some 2 ∧
      ∃ cong, computeEdgeCongestion triG triTree ct = some cong ∧
        alook cong (ekey 0 1) = some ((2 : ℚ) : WithTop ℚ) ∧
        alook cong (ekey 1 2) = some ((2 : ℚ) : WithTop ℚ) ∧
        alook cong (ekey 0 2) = some ((4 : ℚ) : WithTop ℚ)) := by
  refine ⟨rfl, [((1, 2), 2), ((0, 1), 2)], ?_, rfl, rfl,
    [((0, 1), ((2 : ℚ) : WithTop ℚ)), ((1, 2), ((2 : ℚ) : WithTop ℚ)),
      ((0, 2), ((4 : ℚ) : WithTop ℚ))], ?_, rfl, rfl, rfl⟩
  · decide
  · decide

theorem c1_tree_capacities_cut_witness :
    (pkeys triPM).Nodup ∧ alook triPM 0 = some none ∧
    treeInit 10 0 triPM = some (Except.ok triTree) ∧
    (∀ e ∈ triG, e.1 ∈ pkeys triPM ∧ e.2.1 ∈ pkeys triPM) ∧
    (∃ ct, computeTreeCapacities triG triTree = some ct ∧
      ∀ c p, parentF triPM c = some p →
        ∃ stn, subtreeNodes triTree c = some stn ∧
          alook ct (p, c) = some (cutCapacity triG stn)) :=
  ⟨by decide, rfl, rfl, by decide,
    c1_tree_capacities_cut 10 0 triPM triTree triG (by decide) rfl rfl
      (by decide)⟩

theorem c2_congestion_inf_nonneg_witness :
    (pkeys triPM).Nodup ∧ alook triPM 0 = some none ∧
    treeInit 10 0 triPM = some (Except.ok triTree) ∧
    (∀ e ∈ triG, e.1 ∈ pkeys triPM ∧ e.2.1 ∈ pkeys triPM) ∧
    (triG.map (fun e => ekey e.1 e.2.1)).Nodup ∧
    computeTreeCapacities triG triTree =
      some [((1, 2), 2), ((0, 1), 2)] ∧
    (∀ kv ∈ [((1, 2), (2 : ℚ)), ((0, 1), (2 : ℚ))], 0 ≤ kv.2) ∧
    (∃ cong, computeEdgeCongestion triG triTree
        [((1, 2), 2), ((0, 1), 2)] = some cong ∧
      ∀ e ∈ triG, ∃ val, alook cong (ekey e.1 e.2.1) = some val ∧
        (val = ⊤ ↔ e.2.2 ≤ 0) ∧
        (0 < e.2.2 → ∃ q : ℚ, val = (q : WithTop ℚ) ∧ 0 ≤ q)) :=
  ⟨by decide, rfl, rfl, by decide, by decide, by decide, by decide,
    c2_congestion_inf_nonneg 10 0 triPM triTree triG
      [((1, 2), 2), ((0, 1), 2)] (by decide) rfl rfl (by decide)
      (by decide) (by decide) (by decide)⟩

/-- Claim **C6** (code-bug evidence).  On the square graph with the
two-tree mixture, `fit` concatenates the two per-tree sorted cut lists
and `assemble_report` takes the first ten without re-sorting: the
reported `bottleneck_cuts` capacities are `[3, 4, 4, 3, 4, 4]`, which is
not ascending, contradicting the claimed sortedness for every mixture. -/
theorem c6_bottleneck_cuts_unsorted :
    ∃ cuts, fitBottleneckCuts 10 sqG [sqRec1, sqRec2] [0, 1, 2, 3] =
        some (Except.ok cuts) ∧
      cuts.map (fun c => c.capacity) = [3, 4, 4, 3, 4, 4] ∧
      ¬ List.Sorted (fun a b => a ≤ b) (cuts.map (fun c => c.capacity)) := by
  refine ⟨[⟨(0, 3), 3, [3], false⟩, ⟨(0, 1), 4, [1, 2], false⟩,
    ⟨(1, 2), 4, [2], false⟩, ⟨(0, 3), 3, [3, 2], false⟩,
    ⟨(0, 1), 4, [1], false⟩, ⟨(3, 2), 4, [2], false⟩], ?_, ?_, ?_⟩
  · rfl
  · decide
  · decide

/-- Concrete counterexample run for claim **C9**: the file line `A A 1`
is well formed with equal node tokens, yet `load_graph` succeeds and
returns the graph with the self-loop `(A, A)` of capacity 1, instead of
failing. -/
theorem c9_self_loop_loads :
    loadGraph [("A A 1" : String).toList] =
      .ok [(((['A'] : PyStr), (['A'] : PyStr)), 1)] := by rfl

theorem c9_self_loop_accepted_witness :
    ((stripChars ("A A 1" : String).toList).isEmpty ||
      (stripChars ("A A 1" : String).toList).take 1 == ['#']) = false ∧
    tokens (stripChars ("A A 1" : String).toList) =
      [(['A'] : PyStr), (['A'] : PyStr), (['1'] : PyStr)] ∧
    parseFloat ['1'] = some 1 ∧
    loadGraph [("A A 1" : String).toList] =
      .ok [(((['A'] : PyStr), (['A'] : PyStr)), 1)] :=
  ⟨by decide, by decide, by decide,
    c9_self_loop_accepted ("A A 1" : String).toList ['A'] ['1'] 1
      (by decide) (by decide) (by decide)⟩

end

end Ires
